import Mathlib

/-!
Verification of the LV (Leistungsverzeichnis) PDF position-extraction core:
a shallow embedding of `src/PDFPositionExtractor.py` and (for the page-range
check) `src/MetaDataExtractor.py`.

Modelling conventions:
* Python `str` values are modelled as `String`/`List Char`; the string
  operations used by the source (`strip`, `rsplit`, `replace`, `split`,
  `startswith`) are implemented structurally on `List Char`.
* Python regular-expression matching (`re.match` with the three patterns
  compiled in `__init__`) is modelled by deterministic scanners; for these
  particular patterns greedy matching with backtracking coincides with the
  scanners, because the character classes involved are pairwise disjoint.
* `None`/missing (`pd.NA`, `NaN`) is `Option.none` respectively `Val.na`.
* float64 quantity cells produced by `pd.to_numeric` are modelled as exact
  decimals `m * 10 ^ (-e)` (constructor `Val.vnum m e`, kept with a canonical,
  i.e. minimal, exponent); Python's `str(float)` is modelled by `renderDec`:
  plain decimal form for zero and magnitudes in `[1e-4, 1e16)`, scientific
  notation (`d.ddd...e+NN`) otherwise, as `repr` prints it.  `parseDecChars`
  accepts an optional scientific exponent, as `pd.to_numeric` does.  The
  binary rounding of `float()` itself is not modelled: a quantity cell holds
  the exact decimal its source string denotes.
* `_clean_detailed_description` depends on externally extracted header
  metadata (the `Unternehmen` company name fetched by pdfplumber), so the
  state machine is parametrised by the cleanup function `clean`.
-/

set_option autoImplicit false

/-! ### Char-level string primitives (models of Python `str` operations) -/

/-- Python `str.strip()` (restricted to the ASCII whitespace actually present
in extracted lines). -/
def trimL (l : List Char) : List Char :=
  ((l.dropWhile Char.isWhitespace).reverse.dropWhile Char.isWhitespace).reverse

/-- Python `c in s`. -/
def containsC (c : Char) (l : List Char) : Bool := l.any (fun x => x == c)

/-- Python `s.replace('.', '').replace(' ', '')`. -/
def removeDotsSpaces (l : List Char) : List Char :=
  l.filter (fun c => !(c == '.') && !(c == ' '))

/-- Python `s.rsplit(c, 1)` for a string known to contain `c`:
returns the part before and the part after the last occurrence of `c`. -/
def rsplitLast (c : Char) (l : List Char) : List Char × List Char :=
  let p := l.reverse.span (fun x => !(x == c))
  (p.2.tail.reverse, p.1.reverse)

/-- Python `s.startswith(p)`. -/
def startsWithChars : List Char → List Char → Bool
  | [], _ => true
  | _ :: _, [] => false
  | p :: ps, c :: cs => p == c && startsWithChars ps cs

/-- Python `s.split(sep)` (always at least one part). -/
def splitOnCharC (sep : Char) : List Char → List (List Char)
  | [] => [[]]
  | c :: t =>
    if c == sep then [] :: splitOnCharC sep t
    else
      match splitOnCharC sep t with
      | [] => [[c]]
      | h :: r => (c :: h) :: r

/-- Python `text.split('\n')` as used in `extract`. -/
def splitLines (s : String) : List String :=
  (splitOnCharC '\n' s.toList).map String.mk

/-! ### `_normalize_number` (PDFPositionExtractor, lines 350-400) -/

/-- Core of `_normalize_number` on a string value: strip, then
1. if the value contains a comma, the last comma is the decimal separator;
2. otherwise, if it contains a dot, the segment after the last dot is a
   decimal fraction when it has length ≤ 2, else all dots are thousands
   separators;
3. otherwise return the (stripped) value. -/
def normalizeChars (l0 : List Char) : List Char :=
  let l := trimL l0
  if containsC ',' l then
    let p := rsplitLast ',' l
    removeDotsSpaces p.1 ++ '.' :: p.2
  else if containsC '.' l then
    let p := rsplitLast '.' l
    if p.2.length ≤ 2 then removeDotsSpaces p.1 ++ '.' :: p.2
    else removeDotsSpaces l
  else l

/-- `_normalize_number` on a string input. -/
def normalize_number (s : String) : String := String.mk (normalizeChars s.toList)

/-- `_normalize_number` including the `pd.isna(value)` passthrough for
missing values. -/
def normalize_number_opt : Option String → Option String
  | none => none
  | some s => some (normalize_number s)

/-! ### Line classifiers (the three regexes compiled in `__init__`) -/

/-- `pos_pattern = ^(\d+\.\.\.\d+)\s+(.*)` via `re.match`; returns
(group 1, group 2). -/
def posMatch (l : List Char) : Option (List Char × List Char) :=
  let s1 := l.span Char.isDigit
  if s1.1.isEmpty then none else
  match s1.2 with
  | '.' :: '.' :: '.' :: r2 =>
    let s2 := r2.span Char.isDigit
    if s2.1.isEmpty then none else
    let s3 := s2.2.span Char.isWhitespace
    if s3.1.isEmpty then none else
    some (s1.1 ++ '.' :: '.' :: '.' :: s2.1, s3.2)
  | _ => none

/-- `qty_pattern = ^([\d.]+(?:,\d+)?)\s+(\S+)` via `re.match`; returns
(group 1, group 2). -/
def qtyMatch (l : List Char) : Option (List Char × List Char) :=
  let s1 := l.span (fun c => c.isDigit || c == '.')
  if s1.1.isEmpty then none else
  let bp : List Char × List Char :=
    match s1.2 with
    | ',' :: t =>
      let s2 := t.span Char.isDigit
      if s2.1.isEmpty then ([], s1.2) else (',' :: s2.1, s2.2)
    | _ => ([], s1.2)
  let s3 := bp.2.span Char.isWhitespace
  if s3.1.isEmpty then none else
  let s4 := s3.2.span (fun c => !c.isWhitespace)
  if s4.1.isEmpty then none else
  some (s1.1 ++ bp.1, s4.1)

/-- Character class `[A-Za-zÄÖÜäöüß\s\-]` of `section_pattern`. -/
def isSectionChar (c : Char) : Bool :=
  c.isAlpha || c == 'Ä' || c == 'Ö' || c == 'Ü' || c == 'ä' || c == 'ö' || c == 'ü' ||
  c == 'ß' || c.isWhitespace || c == '-'

/-- `section_pattern = ^(\d+)\s+([A-Za-zÄÖÜäöüß\s\-]+)$` via `re.match`;
returns group 2.  The middle branch models greedy backtracking when the
line ends in whitespace (unreachable for stripped lines). -/
def sectionMatch (l : List Char) : Option (List Char) :=
  let s1 := l.span Char.isDigit
  if s1.1.isEmpty then none else
  let s2 := s1.2.span Char.isWhitespace
  if s2.1.isEmpty then none else
  if s2.2.isEmpty then
    if s2.1.length ≥ 2 then some [s2.1.getLastD ' '] else none
  else if s2.2.all isSectionChar then some s2.2 else none

/-! ### Position assembly state machine (PDFPositionExtractor) -/

/-- One position record (the dict built in `_process_position`).
`DetailedDescription` is `some ""` while empty-but-present and `none` for
Python `None`. -/
structure Row where
  Section : Option String
  SectionHint : Option String
  Position : String
  MainDescription : String
  DetailedDescription : Option String
  Quantity : Option String
  Unit : Option String
  Page : Nat
deriving DecidableEq, Repr

/-- The extractor's mutable state: `self.rows`, `self.section`,
`self.current`, `self.section_hint`. -/
structure ExtractState where
  rows : List Row
  «section» : Option String
  current : Option Row
  section_hint : String
deriving DecidableEq, Repr

/-- State set up in `__init__`. -/
def initState : ExtractState := ⟨[], none, none, ""⟩

/-- The body of `_finalize_current_position` acting on the open record:
a non-empty detailed description is cleaned, and an empty cleanup result
becomes `None`. -/
def finalizeRow (clean : String → String) (r : Row) : Row :=
  match r.DetailedDescription with
  | some s =>
    if s = "" then r
    else
      let c := clean s
      { r with DetailedDescription := if c = "" then none else some c }
  | none => r

/-- `_finalize_current_position`: append the (cleaned) open record to
`rows` and close it. -/
def finalizeState (clean : String → String) (st : ExtractState) : ExtractState :=
  match st.current with
  | some c => { st with rows := st.rows ++ [finalizeRow clean c], current := none }
  | none => st

/-- `_process_section_header` (returns the updated state instead of a bool). -/
def process_section_header (clean : String → String) (st : ExtractState) (l : List Char) :
    Option ExtractState :=
  match sectionMatch l with
  | none => none
  | some g2 =>
    let st1 := finalizeState clean st
    some { st1 with «section» := some (String.mk (trimL g2)), section_hint := "" }

/-- `_process_position`. -/
def process_position (clean : String → String) (st : ExtractState) (l : List Char) (page : Nat) :
    Option ExtractState :=
  match posMatch l with
  | none => none
  | some g =>
    let st1 := finalizeState clean st
    some { st1 with
      current := some {
        Section := st1.«section»,
        SectionHint := if st.section_hint = "" then none
                       else some (String.mk (trimL st.section_hint.toList)),
        Position := String.mk g.1,
        MainDescription := String.mk (trimL g.2),
        DetailedDescription := some "",
        Quantity := none,
        Unit := none,
        Page := page },
      section_hint := "" }

/-- `_process_quantity_unit`: only applies when a record is open. -/
def process_quantity_unit (st : ExtractState) (l : List Char) : Option ExtractState :=
  match qtyMatch l, st.current with
  | some g, some c =>
    some { st with current := some { c with Quantity := some (String.mk g.1),
                                            Unit := some (String.mk g.2) } }
  | _, _ => none

/-- `_process_section_hint`: accumulate only when `self.section` is truthy
and no record is open. -/
def process_section_hint (st : ExtractState) (l : List Char) : Option ExtractState :=
  if st.«section».getD "" ≠ "" ∧ st.current = none then
    some { st with section_hint :=
      if st.section_hint = "" then String.mk l
      else String.mk (trimL (st.section_hint.toList ++ ' ' :: l)) }
  else none

/-- The `skip_tokens` check of `_process_detailed_description`. -/
def skipLine (l : List Char) : Bool :=
  startsWithChars "Übertrag".toList l || startsWithChars "Summe".toList l ||
  startsWithChars "mailto:".toList l || startsWithChars "Projekt:".toList l

/-- `_process_detailed_description`. -/
def process_detailed_description (st : ExtractState) (l : List Char) : ExtractState :=
  match st.current with
  | none => st
  | some c =>
    if skipLine l then st
    else
      { st with current := some { c with DetailedDescription :=
        match c.DetailedDescription with
        | some d => if d = "" then some (String.mk l) else some (d ++ " " ++ String.mk l)
        | none => some (String.mk l) } }

/-- The per-line dispatch of `_process_lines` on an already stripped line:
section header, then position, then quantity/unit, then hint, then the
detailed-description fallback. -/
def processLineC (clean : String → String) (page : Nat) (st : ExtractState) (l : List Char) :
    ExtractState :=
  if l.isEmpty then st
  else
    match process_section_header clean st l with
    | some st1 => st1
    | none =>
      match process_position clean st l page with
      | some st1 => st1
      | none =>
        match process_quantity_unit st l with
        | some st1 => st1
        | none =>
          match process_section_hint st l with
          | some st1 => st1
          | none => process_detailed_description st l

/-- One iteration of the line loop of `_process_lines`:
`line = line.strip(); if not line: continue; ...`. -/
def processLine (clean : String → String) (page : Nat) (st : ExtractState) (line : String) :
    ExtractState :=
  processLineC clean page st (trimL line.toList)

/-- `_process_lines`: fold the dispatch over the page's lines, and finalize
the open position at the end of the last page. -/
def process_lines (clean : String → String) (st : ExtractState) (lines : List String)
    (page : Nat) (is_last : Bool) : ExtractState :=
  let st1 := lines.foldl (processLine clean page) st
  if is_last then finalizeState clean st1 else st1

/-- The page loop of `extract`: pages are numbered from 1, a page with no
text is skipped, and `is_last` marks page number `total`. -/
def extractGo (clean : String → String) (total : Nat) :
    ExtractState → Nat → List String → ExtractState
  | st, _, [] => st
  | st, i, text :: rest =>
    let st1 := if text = "" then st
               else process_lines clean st (splitLines text) i (i == total)
    extractGo clean total st1 (i + 1) rest

/-- `extract`: run the page loop from the initial state and collect the rows
(`pd.DataFrame(self.rows)`).  A page's text is a single string, lines are
separated by `'\n'`, and a falsy (empty) text page is skipped. -/
def extract (clean : String → String) (pages : List String) : List Row :=
  (extractGo clean pages.length initState 1 pages).rows

/-! ### Decimal model of the float64 quantity column -/

/-- Decimal digit to character. -/
def digitChar (d : Nat) : Char :=
  match d with
  | 0 => '0' | 1 => '1' | 2 => '2' | 3 => '3' | 4 => '4'
  | 5 => '5' | 6 => '6' | 7 => '7' | 8 => '8' | 9 => '9'
  | _ => '*'

/-- Character to decimal digit value. -/
def charVal (c : Char) : Nat := c.toNat - 48

/-- Little-endian decimal digits with explicit fuel. -/
def revDigitsAux : Nat → Nat → List Nat
  | 0, _ => []
  | fuel + 1, n => if n = 0 then [] else n % 10 :: revDigitsAux fuel (n / 10)

/-- Little-endian decimal digits of `n` (empty for 0). -/
def revDigits (n : Nat) : List Nat := revDigitsAux n n

/-- Decimal digit string of a natural number, like Python `str(n)`. -/
def natChars (n : Nat) : List Char :=
  if n = 0 then ['0'] else ((revDigits n).map digitChar).reverse

/-- Value of a big-endian digit-character string. -/
def BEvalC (l : List Char) : Nat := l.foldl (fun a c => a * 10 + charVal c) 0

/-- Left-pad a digit string with zeros to length `e`. -/
def padZeros (l : List Char) (e : Nat) : List Char := List.replicate (e - l.length) '0' ++ l

/-- Strip trailing `'0'` characters. -/
def stripTrailingZeros (l : List Char) : List Char :=
  (l.reverse.dropWhile (fun c => c == '0')).reverse

/-- Exponent suffix of a scientific float repr: `e+NN` / `e-NN` with at
least two exponent digits, as Python prints it. -/
def sciExpChars (x : Int) : List Char :=
  'e' :: (if x < 0 then '-' else '+') :: padZeros (natChars x.natAbs) 2

/-- Scientific rendering of the decimal `n * 10^(-e)` (for `n > 0`):
leading digit, fractional digits with trailing zeros stripped (the dot is
omitted when none remain), then the exponent suffix. -/
def sciChars (n : Nat) (e : Nat) : List Char :=
  let ds := natChars n
  let frac := stripTrailingZeros ds.tail
  (ds.headD '0' :: (if frac.isEmpty then [] else '.' :: frac)) ++
    sciExpChars ((ds.length : Int) - 1 - e)

/-- Python `str(value)` for a float64 holding the decimal `m * 10^(-e)`
(with canonical `e`): zero and magnitudes in `[1e-4, 1e16)` print in plain
decimal form (`"42.0"` for integral values), everything else in scientific
notation, exactly as `repr` chooses.  The magnitude conditions are stated
on the decimal: `|x| >= 1e-4` is `10^e <= |m| * 10^4` and `|x| < 1e16` is
`|m| < 10^(16+e)`. -/
def renderDecC (m : Int) (e : Nat) : List Char :=
  (if m < 0 then ['-'] else []) ++
  (if m.natAbs = 0 ∨ (10 ^ e ≤ m.natAbs * 10 ^ 4 ∧ m.natAbs < 10 ^ (16 + e)) then
    (if e = 0 then natChars m.natAbs ++ ['.', '0']
     else natChars (m.natAbs / 10 ^ e) ++ '.' :: padZeros (natChars (m.natAbs % 10 ^ e)) e)
   else sciChars m.natAbs e)

/-- String version of `renderDecC`. -/
def renderDec (m : Int) (e : Nat) : String := String.mk (renderDecC m e)

/-- Python `str(value)` for an int value. -/
def renderIntS (n : Int) : String :=
  String.mk ((if n < 0 then ['-'] else []) ++ natChars n.natAbs)

/-- Strip one leading sign character. -/
def stripSign (l : List Char) : Bool × List Char :=
  match l with
  | c :: t => if c == '-' then (true, t) else if c == '+' then (false, t) else (false, l)
  | [] => (false, l)

/-- Split at the first dot (dot removed). -/
def splitFirstDot (l : List Char) : List Char × List Char :=
  let p := l.span (fun c => !(c == '.'))
  (p.1, p.2.tail)

/-- Drop factors of ten from a decimal `v * 10^(-e)` until the exponent is
canonical (mirrors that equal float64 values are identified). -/
def canonDecN : Nat → Nat → Nat × Nat
  | v, 0 => (v, 0)
  | v, e + 1 => if v % 10 = 0 then canonDecN (v / 10) e else (v, e + 1)

/-- Apply a sign flag to a magnitude. -/
def intOfSign (neg : Bool) (n : Nat) : Int := if neg then -(n : Int) else (n : Int)

/-- Optionally signed exponent digits after the `e`/`E`. -/
def parseExpDigits (l : List Char) : Option Int :=
  match l with
  | '+' :: t => if !t.isEmpty && t.all Char.isDigit then some ((BEvalC t : Int)) else none
  | '-' :: t => if !t.isEmpty && t.all Char.isDigit then some (-(BEvalC t : Int)) else none
  | _ => if !l.isEmpty && l.all Char.isDigit then some ((BEvalC l : Int)) else none

/-- The exponent part of a float literal: absent (exponent 0), or `e`/`E`
followed by optionally signed digits. -/
def parseExpPart : List Char → Option Int
  | [] => some 0
  | _ :: rest => parseExpDigits rest

/-- Combine an unsigned mantissa value `v` with `f` fractional digits and a
decimal exponent `k` into a canonical `(value, negative exponent)` pair:
the decimal `v * 10^(k - f)`. -/
def scaleDec (v f : Nat) (k : Int) : Nat × Nat :=
  if 0 ≤ k then
    if f ≤ k.toNat then (v * 10 ^ (k.toNat - f), 0)
    else canonDecN v (f - k.toNat)
  else canonDecN v (f + (-k).toNat)

/-- Model of `pd.to_numeric(·, errors="coerce")` on a float literal:
optional surrounding whitespace and sign, digits with at most one dot, and
an optional scientific exponent; anything else (including `inf`/`nan`
spellings) coerces to missing. -/
def parseDecChars (l0 : List Char) : Option (Int × Nat) :=
  let l1 := trimL l0
  let sl := stripSign l1
  let ep := sl.2.span (fun c => !(c == 'e' || c == 'E'))
  match parseExpPart ep.2 with
  | none => none
  | some k =>
    let l := ep.1
    if containsC '.' l then
      let ab := splitFirstDot l
      if containsC '.' ab.2 then none
      else if ab.1.isEmpty && ab.2.isEmpty then none
      else if ab.1.all Char.isDigit && ab.2.all Char.isDigit then
        let ce := scaleDec (BEvalC (ab.1 ++ ab.2)) ab.2.length k
        some (intOfSign sl.1 ce.1, ce.2)
      else none
    else if !l.isEmpty && l.all Char.isDigit then
      let ce := scaleDec (BEvalC l) 0 k
      some (intOfSign sl.1 ce.1, ce.2)
    else none

/-! ### DataFrame model and the post-processing pipeline (`main`, steps 2-5) -/

/-- A DataFrame cell: missing, string, float64 (as exact decimal), or int. -/
inductive Val where
  | na : Val
  | vstr : String → Val
  | vnum : Int → Nat → Val
  | vint : Int → Val
deriving DecidableEq, Repr

/-- A row of the extracted DataFrame.  `level1`/`level2` are the
`position_level_1`/`position_level_2` columns (`none` before
`generate_position_levels` has added them). -/
structure DRow where
  Section : Val
  SectionHint : Val
  Position : Val
  MainDescription : Val
  DetailedDescription : Val
  Quantity : Val
  Unit : Val
  Page : Val
  level1 : Option Int
  level2 : Option Int
deriving DecidableEq, Repr

/-- Python `int(s)` on a decimal string with optional leading minus. -/
def parseIntChars (l : List Char) : Option Int :=
  match l with
  | '-' :: t => if !t.isEmpty && t.all Char.isDigit then some (-(BEvalC t : Int)) else none
  | _ => if !l.isEmpty && l.all Char.isDigit then some ((BEvalC l : Int)) else none

/-- `.astype('int32')` on one string cell: parse, and fail (hard) outside
the int32 range. -/
def parseInt32 (s : String) : Option Int :=
  match parseIntChars s.toList with
  | some n => if -(2 ^ 31) ≤ n ∧ n < 2 ^ 31 then some n else none
  | none => none

/-- One row of `generate_position_levels`: split `Position` on `'.'`, the
first segment becomes `position_level_1` and the last `position_level_2`;
a non-string or unparsable position is a hard failure (`None`). -/
def genRow (r : DRow) : Option DRow :=
  match r.Position with
  | .vstr p =>
    let segs := splitOnCharC '.' p.toList
    match parseInt32 (String.mk (segs.headD [])), parseInt32 (String.mk (segs.getLastD [])) with
    | some a, some b => some { r with level1 := some a, level2 := some b }
    | _, _ => none
  | _ => none

/-- `mapM` over `Option`, written structurally. -/
def mapMO {a b : Type} (f : a → Option b) : List a → Option (List b)
  | [] => some []
  | x :: t =>
    match f x, mapMO f t with
    | some y, some ys => some (y :: ys)
    | _, _ => none

/-- `generate_position_levels` over the whole table. -/
def generate_position_levels (t : List DRow) : Option (List DRow) := mapMO genRow t

/-- `df.replace(['___ ________ ____________', '________'], pd.NA)` on one
cell (exact match, any column). -/
def clVal (v : Val) : Val :=
  match v with
  | .vstr s => if s = "___ ________ ____________" ∨ s = "________" then .na else v
  | _ => v

/-- The `SectionHint.str.startswith('Ingenieurbüro Wagner und Koll')`
clearing of `cleaning_steps` on one cell (non-strings are left alone, as
`.str` yields NA for them). -/
def hintFix (v : Val) : Val :=
  match v with
  | .vstr s => if startsWithChars "Ingenieurbüro Wagner und Koll".toList s.toList then .na else v
  | _ => v

/-- `cleaning_steps` on one row: placeholder replacement on every column,
then the letterhead-prefix clearing on `SectionHint`. -/
def clRow (r : DRow) : DRow :=
  let r1 : DRow :=
    { Section := clVal r.Section, SectionHint := clVal r.SectionHint,
      Position := clVal r.Position, MainDescription := clVal r.MainDescription,
      DetailedDescription := clVal r.DetailedDescription, Quantity := clVal r.Quantity,
      Unit := clVal r.Unit, Page := clVal r.Page, level1 := r.level1, level2 := r.level2 }
  { r1 with SectionHint := hintFix r1.SectionHint }

/-- `cleaning_steps` over the whole table. -/
def cleaning_steps (t : List DRow) : List DRow := t.map clRow

/-- `pd.to_numeric(·, errors="coerce")` on one (string) cell. -/
def toNumericVal (s : String) : Val :=
  match parseDecChars s.toList with
  | some p => .vnum p.1 p.2
  | none => .na

/-- The Quantity treatment of `parse_datatypes`:
`df["Quantity"].apply(self._normalize_number)` followed by `pd.to_numeric`.
Non-string non-missing values go through `str(value)` first, exactly as in
`_normalize_number`. -/
def qtyCoerce (v : Val) : Val :=
  match v with
  | .na => .na
  | .vstr s => toNumericVal (normalize_number s)
  | .vnum m e => toNumericVal (normalize_number (renderDec m e))
  | .vint n => toNumericVal (normalize_number (renderIntS n))

/-- `parse_datatypes` on one row.  The trailing
`df.astype(self.datatypes, errors="ignore")` only adjusts column dtypes
(and, with `errors="ignore"`, never raises), so it is value-level identity
here. -/
def pdRow (r : DRow) : DRow := { r with Quantity := qtyCoerce r.Quantity }

/-- `parse_datatypes` over the whole table. -/
def parse_datatypes (t : List DRow) : List DRow := t.map pdRow

/-- First non-missing `SectionHint` among rows with grouping key `k`. -/
def firstHintV (k : Option Int) : List DRow → Option Val
  | [] => none
  | r :: rest => if r.level1 = k ∧ r.SectionHint ≠ .na then some r.SectionHint
                 else firstHintV k rest

/-- Last non-missing `SectionHint` among rows with grouping key `k`. -/
def lastHintV (k : Option Int) (l : List DRow) : Option Val := firstHintV k l.reverse

/-- The `groupby('position_level_1').transform(x.ffill().bfill())` of
`fill_hint_columns`: each row receives the last non-missing hint at or
before it in its group, else the first non-missing hint after it in its
group. -/
def fillGo (prev : List DRow) : List DRow → List DRow
  | [] => []
  | r :: rest =>
    let h : Val :=
      match lastHintV r.level1 (prev ++ [r]) with
      | some v => v
      | none =>
        match firstHintV r.level1 rest with
        | some v => v
        | none => .na
    { r with SectionHint := h } :: fillGo (prev ++ [r]) rest

/-- `fill_hint_columns` over the whole table. -/
def fill_hint_columns (t : List DRow) : List DRow := fillGo [] t

/-- The post-processing pipeline of `main` (everything after `extract`):
`generate_position_levels`, `cleaning_steps`, `parse_datatypes`,
`fill_hint_columns`.  `none` models the hard failure of
`.astype('int32')` on a malformed position. -/
def pipeline (t : List DRow) : Option (List DRow) :=
  match generate_position_levels t with
  | none => none
  | some t1 => some (fill_hint_columns (parse_datatypes (cleaning_steps t1)))

/-- Decidable form of "this quantity cell is missing, or a decimal with at
most two fractional digits whose magnitude is below 1e16" (so that its
float repr is plain decimal, not scientific). -/
def qtyOkB : Val → Bool
  | .na => true
  | .vnum m e => e ≤ 2 && m.natAbs < 10 ^ (16 + e)
  | _ => false

/-! ### `extract_header_from_page` (MetaDataExtractor, lines 197-215) -/

/-- The header dict produced by `extract_header_metadata` (which wraps its
body in `try/except` and hence always returns). -/
structure HeaderData where
  fields : List (String × String)
deriving DecidableEq, Repr

/-- Decimal rendering of an integer, as in an f-string. -/
def intStr (n : Int) : String :=
  String.mk ((if n < 0 then ['-'] else []) ++ natChars n.natAbs)

/-- `extract_header_from_page`: for `1 <= page_number <= len(pdf.pages)`
return the page's header metadata, otherwise raise
`IndexError(f"Page number {page_number} out of range (1–{len(pdf.pages)})")`.
The document pages and the (total, never-raising) per-page header
extraction are external collaborators, so they are parameters. -/
def extract_header_from_page {α : Type} (pages : List α) (headerMeta : α → HeaderData)
    (page_number : Int) : Except String HeaderData :=
  if h : 1 ≤ page_number ∧ page_number ≤ (pages.length : Int) then
    .ok (headerMeta (pages.get ⟨(page_number - 1).toNat, by omega⟩))
  else
    .error ("Page number " ++ intStr page_number ++ " out of range (1–" ++
            intStr (pages.length : Int) ++ ")")

/-! ### Helper lemmas: state machine -/

theorem finalizeState_current (clean : String → String) (st : ExtractState) :
    (finalizeState clean st).current = none := by
  obtain ⟨rows, sec, cur, hint⟩ := st
  cases cur <;> rfl

theorem finalizeState_sec (clean : String → String) (st : ExtractState) :
    (finalizeState clean st).«section» = st.«section» := by
  obtain ⟨rows, sec, cur, hint⟩ := st
  cases cur <;> rfl

theorem finalizeState_hint (clean : String → String) (st : ExtractState) :
    (finalizeState clean st).section_hint = st.section_hint := by
  obtain ⟨rows, sec, cur, hint⟩ := st
  cases cur <;> rfl

theorem finalizeState_rows (clean : String → String) (st : ExtractState) :
    (st.current = none ∧ (finalizeState clean st).rows = st.rows) ∨
      ∃ c, st.current = some c ∧ (finalizeState clean st).rows = st.rows ++ [finalizeRow clean c] := by
  obtain ⟨rows, sec, cur, hint⟩ := st
  cases cur with
  | none => exact Or.inl ⟨rfl, rfl⟩
  | some c => exact Or.inr ⟨c, rfl, rfl⟩

theorem finalizeState_of_current (clean : String → String) (st : ExtractState) (c : Row)
    (h : st.current = some c) :
    finalizeState clean st =
      { rows := st.rows ++ [finalizeRow clean c], «section» := st.«section»,
        current := none, section_hint := st.section_hint } := by
  obtain ⟨rows, sec, cur, hint⟩ := st
  cases cur with
  | none => exact absurd h (by simp)
  | some c0 =>
    obtain rfl : c0 = c := by simpa using h
    rfl

theorem psh_none (clean : String → String) (st : ExtractState) (l : List Char)
    (h : sectionMatch l = none) : process_section_header clean st l = none := by
  simp [process_section_header, h]

theorem psh_of_match (clean : String → String) (st : ExtractState) (l : List Char) (g2 : List Char)
    (h : sectionMatch l = some g2) :
    process_section_header clean st l =
      some { finalizeState clean st with
             «section» := some (String.mk (trimL g2)), section_hint := "" } := by
  simp [process_section_header, h]

theorem ppos_none (clean : String → String) (st : ExtractState) (l : List Char) (page : Nat)
    (h : posMatch l = none) : process_position clean st l page = none := by
  simp [process_position, h]

theorem ppos_of_match (clean : String → String) (st : ExtractState) (l : List Char) (page : Nat)
    (g : List Char × List Char) (h : posMatch l = some g) :
    process_position clean st l page =
      some { finalizeState clean st with
        current := some {
          Section := (finalizeState clean st).«section»,
          SectionHint := if st.section_hint = "" then none
                         else some (String.mk (trimL st.section_hint.toList)),
          Position := String.mk g.1,
          MainDescription := String.mk (trimL g.2),
          DetailedDescription := some "",
          Quantity := none,
          Unit := none,
          Page := page },
        section_hint := "" } := by
  simp [process_position, h]

theorem pqu_of_match (st : ExtractState) (l : List Char) (g : List Char × List Char) (c : Row)
    (hq : qtyMatch l = some g) (hc : st.current = some c) :
    process_quantity_unit st l =
      some { st with current := some { c with Quantity := some (String.mk g.1),
                                              Unit := some (String.mk g.2) } } := by
  simp [process_quantity_unit, hq, hc]

theorem pqu_some_shape (st st1 : ExtractState) (l : List Char)
    (h : process_quantity_unit st l = some st1) :
    st1.rows = st.rows ∧ st1.«section» = st.«section» ∧ st1.section_hint = st.section_hint := by
  unfold process_quantity_unit at h
  cases hq : qtyMatch l <;> rw [hq] at h
  · cases hc : st.current <;> rw [hc] at h <;> simp at h
  · cases hc : st.current <;> rw [hc] at h
    · simp at h
    · simp only [Option.some.injEq] at h
      subst h
      exact ⟨rfl, rfl, rfl⟩

theorem pshint_some_guard (st st1 : ExtractState) (l : List Char)
    (h : process_section_hint st l = some st1) :
    st.«section».getD "" ≠ "" ∧ st.current = none := by
  unfold process_section_hint at h
  split at h
  · assumption
  · exact absurd h (by simp)

theorem pshint_some_shape (st st1 : ExtractState) (l : List Char)
    (h : process_section_hint st l = some st1) :
    st1.rows = st.rows ∧ st1.«section» = st.«section» ∧ st1.current = st.current := by
  unfold process_section_hint at h
  split at h
  · cases h; exact ⟨rfl, rfl, rfl⟩
  · exact absurd h (by simp)

theorem pdd_shape (st : ExtractState) (l : List Char) :
    (process_detailed_description st l).rows = st.rows ∧
      (process_detailed_description st l).«section» = st.«section» ∧
      (process_detailed_description st l).section_hint = st.section_hint := by
  obtain ⟨rows, sec, cur, hint⟩ := st
  cases cur with
  | none => exact ⟨rfl, rfl, rfl⟩
  | some c =>
    unfold process_detailed_description
    dsimp only
    split <;> exact ⟨rfl, rfl, rfl⟩

theorem sectionMatch_nil : sectionMatch [] = none := rfl

theorem posMatch_nil : posMatch [] = none := rfl

theorem qtyMatch_nil : qtyMatch [] = none := rfl

theorem isEmpty_false_of_qtyMatch (l : List Char) (g : List Char × List Char)
    (h : qtyMatch l = some g) : l.isEmpty = false := by
  cases l with
  | nil => exact absurd h (by rw [qtyMatch_nil]; simp)
  | cons a t => rfl

theorem isEmpty_false_of_sectionMatch (l : List Char) (g : List Char)
    (h : sectionMatch l = some g) : l.isEmpty = false := by
  cases l with
  | nil => exact absurd h (by rw [sectionMatch_nil]; simp)
  | cons a t => rfl

theorem isEmpty_false_of_posMatch (l : List Char) (g : List Char × List Char)
    (h : posMatch l = some g) : l.isEmpty = false := by
  cases l with
  | nil => exact absurd h (by rw [posMatch_nil]; simp)
  | cons a t => rfl

theorem processLine_section (clean : String → String) (page : Nat) (st : ExtractState)
    (line : String) (g2 : List Char) (h : sectionMatch (trimL line.toList) = some g2) :
    processLine clean page st line =
      { finalizeState clean st with
        «section» := some (String.mk (trimL g2)), section_hint := "" } := by
  unfold processLine processLineC
  rw [isEmpty_false_of_sectionMatch _ _ h, psh_of_match clean st _ _ h]
  simp

theorem processLine_position (clean : String → String) (page : Nat) (st : ExtractState)
    (line : String) (g : List Char × List Char)
    (h1 : sectionMatch (trimL line.toList) = none)
    (h2 : posMatch (trimL line.toList) = some g) :
    processLine clean page st line =
      { finalizeState clean st with
        current := some {
          Section := (finalizeState clean st).«section»,
          SectionHint := if st.section_hint = "" then none
                         else some (String.mk (trimL st.section_hint.toList)),
          Position := String.mk g.1,
          MainDescription := String.mk (trimL g.2),
          DetailedDescription := some "",
          Quantity := none,
          Unit := none,
          Page := page },
        section_hint := "" } := by
  unfold processLine processLineC
  rw [isEmpty_false_of_posMatch _ _ h2, psh_none clean st _ h1, ppos_of_match clean st _ page _ h2]
  simp

theorem processLine_qty (clean : String → String) (page : Nat) (st : ExtractState)
    (line : String) (c : Row) (g : List Char × List Char)
    (hc : st.current = some c)
    (h1 : sectionMatch (trimL line.toList) = none)
    (h2 : posMatch (trimL line.toList) = none)
    (h3 : qtyMatch (trimL line.toList) = some g) :
    processLine clean page st line =
      { st with current := some { c with Quantity := some (String.mk g.1),
                                         Unit := some (String.mk g.2) } } := by
  unfold processLine processLineC
  rw [isEmpty_false_of_qtyMatch _ _ h3, psh_none clean st _ h1, ppos_none clean st _ page h2,
    pqu_of_match st _ g c h3 hc]
  simp

theorem psh_some_hint (clean : String → String) (st : ExtractState) (l : List Char)
    (st1 : ExtractState) (h : process_section_header clean st l = some st1) :
    st1.section_hint = "" := by
  unfold process_section_header at h
  cases hm : sectionMatch l <;> rw [hm] at h
  · simp at h
  · simp only [Option.some.injEq] at h
    subst h
    rfl

theorem psh_some_rows (clean : String → String) (st : ExtractState) (l : List Char)
    (st1 : ExtractState) (h : process_section_header clean st l = some st1) :
    st1.rows = (finalizeState clean st).rows := by
  unfold process_section_header at h
  cases hm : sectionMatch l <;> rw [hm] at h
  · simp at h
  · simp only [Option.some.injEq] at h
    subst h
    rfl

theorem ppos_some_hint (clean : String → String) (st : ExtractState) (l : List Char) (page : Nat)
    (st1 : ExtractState) (h : process_position clean st l page = some st1) :
    st1.section_hint = "" := by
  unfold process_position at h
  cases hm : posMatch l <;> rw [hm] at h
  · simp at h
  · simp only [Option.some.injEq] at h
    subst h
    rfl

theorem ppos_some_rows (clean : String → String) (st : ExtractState) (l : List Char) (page : Nat)
    (st1 : ExtractState) (h : process_position clean st l page = some st1) :
    st1.rows = (finalizeState clean st).rows := by
  unfold process_position at h
  cases hm : posMatch l <;> rw [hm] at h
  · simp at h
  · simp only [Option.some.injEq] at h
    subst h
    rfl

theorem processLine_hint_cases (clean : String → String) (page : Nat) (st : ExtractState)
    (line : String) :
    (processLine clean page st line).section_hint = "" ∨
    (processLine clean page st line).section_hint = st.section_hint ∨
    (st.«section».getD "" ≠ "" ∧ st.current = none) := by
  unfold processLine processLineC
  split
  · exact Or.inr (Or.inl rfl)
  · split
    · rename_i st1 h
      exact Or.inl (psh_some_hint clean st _ st1 h)
    · split
      · rename_i st1 h
        exact Or.inl (ppos_some_hint clean st _ page st1 h)
      · split
        · rename_i st1 h
          exact Or.inr (Or.inl (pqu_some_shape st st1 _ h).2.2)
        · split
          · rename_i st1 h
            exact Or.inr (Or.inr (pshint_some_guard st st1 _ h))
          · exact Or.inr (Or.inl (pdd_shape st _).2.2)

theorem processLine_rows_cases (clean : String → String) (page : Nat) (st : ExtractState)
    (line : String) :
    (processLine clean page st line).rows = st.rows ∨
      ∃ c, st.current = some c ∧
        (processLine clean page st line).rows = st.rows ++ [finalizeRow clean c] := by
  have fin := finalizeState_rows clean st
  unfold processLine processLineC
  split
  · exact Or.inl rfl
  · split
    · rename_i st1 h
      rw [psh_some_rows clean st _ st1 h]
      rcases fin with ⟨_, hr⟩ | ⟨c, hc, hr⟩
      · exact Or.inl hr
      · exact Or.inr ⟨c, hc, hr⟩
    · split
      · rename_i st1 h
        rw [ppos_some_rows clean st _ page st1 h]
        rcases fin with ⟨_, hr⟩ | ⟨c, hc, hr⟩
        · exact Or.inl hr
        · exact Or.inr ⟨c, hc, hr⟩
      · split
        · rename_i st1 h
          exact Or.inl (pqu_some_shape st st1 _ h).1
        · split
          · rename_i st1 h
            exact Or.inl (pshint_some_shape st st1 _ h).1
          · exact Or.inl (pdd_shape st _).1

theorem getLastD_indep {α : Type} (l : List α) (h : l ≠ []) (d1 d2 : α) :
    l.getLastD d1 = l.getLastD d2 := by
  cases l with
  | nil => exact absurd rfl h
  | cons a t =>
    have hs : (a :: t).getLast?.isSome := by simp
    obtain ⟨x, hx⟩ := Option.isSome_iff_exists.mp hs
    simp [List.getLastD_eq_getLast?, hx]

theorem extractGo_last_flush (clean : String → String) (total : Nat) :
    ∀ (ps : List String) (st : ExtractState) (i : Nat), ps ≠ [] → ps.getLastD "" ≠ "" →
      i + ps.length = total + 1 → (extractGo clean total st i ps).current = none := by
  intro ps
  induction ps with
  | nil => intro st i h _ _; exact absurd rfl h
  | cons p rest ih =>
    intro st i _ hlast hlen
    cases rest with
    | nil =>
      have hi : i = total := by simpa using hlen
      have hp : ¬ p = "" := by simpa [List.getLastD] using hlast
      subst hi
      simp only [extractGo, if_neg hp]
      simp [process_lines, finalizeState_current]
    | cons q u =>
      have hl2 : (q :: u).getLastD "" ≠ "" := by
        rw [List.getLastD_cons] at hlast
        rwa [getLastD_indep (q :: u) (by simp) "" p]
      simp only [extractGo]
      refine ih _ (i + 1) (by simp) hl2 ?_
      simp only [List.length_cons] at hlen ⊢
      omega

theorem row_qty_overwrite (c : Row) (x y x2 y2 : Option String) :
    ({ { c with Quantity := x, Unit := y } with Quantity := x2, Unit := y2 } : Row) =
      { c with Quantity := x2, Unit := y2 } := rfl

/-! ### Claim theorems -/

/-- C1: the number normalizer maps `"3.350,50"` to `"3350.50"`, `"3.350.000"`
to `"3350000"`, `"1234.50"` to `"1234.50"`, `"1 234,75"` to `"1234.75"`, and
`"42"` to `"42"`, and passes a missing value through unchanged. -/
theorem C1_normalize_number_examples :
    normalize_number "3.350,50" = "3350.50" ∧ normalize_number "3.350.000" = "3350000" ∧
    normalize_number "1234.50" = "1234.50" ∧ normalize_number "1 234,75" = "1234.75" ∧
    normalize_number "42" = "42" ∧ normalize_number_opt none = none := by
  decide

/-- C3: section-hint text is accumulated only when a section is set and no
record is open — whenever a processed line changes `section_hint` to a new
non-empty value, the state had a (truthy) section and no open record; and the
scenario `"10 Erdarbeiten"`, `"some hint"`, `"1...1 Aushub"`, `"3,50 m3"`
yields exactly one record with `section_hint = "some hint"`, raw quantity
`"3,50"` and unit `"m3"`, where `"3,50"` normalizes and coerces to 3.5
(the decimal `35 * 10⁻¹`). -/
theorem C3_section_hint_accumulation (clean : String → String) (page : Nat)
    (st : ExtractState) (line : String) :
    ((processLine clean page st line).section_hint ≠ "" →
      (processLine clean page st line).section_hint ≠ st.section_hint →
      st.«section».getD "" ≠ "" ∧ st.current = none) ∧
    process_lines id initState ["10 Erdarbeiten", "some hint", "1...1 Aushub", "3,50 m3"] 1 true =
      { rows := [⟨some "Erdarbeiten", some "some hint", "1...1", "Aushub", some "", some "3,50",
                  some "m3", 1⟩],
        «section» := some "Erdarbeiten", current := none, section_hint := "" } ∧
    toNumericVal (normalize_number "3,50") = .vnum 35 1 := by
  refine ⟨?_, by decide, by decide⟩
  intro h1 h2
  rcases processLine_hint_cases clean page st line with h | h | h
  · exact absurd h h1
  · exact absurd h h2
  · exact h

/-- Witness for C3: a concrete state with a section and no open record, whose
hint is changed to a non-empty value by the line `"hi"`. -/
theorem C3_witness :
    (processLine id 1 ⟨[], some "S", none, ""⟩ "hi").section_hint ≠ "" ∧
    (processLine id 1 ⟨[], some "S", none, ""⟩ "hi").section_hint ≠
      (⟨[], some "S", none, ""⟩ : ExtractState).section_hint ∧
    ((⟨[], some "S", none, ""⟩ : ExtractState).«section».getD "" ≠ "" ∧
      (⟨[], some "S", none, ""⟩ : ExtractState).current = none) :=
  ⟨by decide, by decide,
    (C3_section_hint_accumulation id 1 ⟨[], some "S", none, ""⟩ "hi").1 (by decide) (by decide)⟩

/-- C4: a quantity/unit line that reaches the quantity classifier while a
record opened on page N is still current sets that record's quantity and unit
and leaves its `Page` field (N) untouched, regardless of the page number the
line itself is on; the page loop passes the state across page boundaries
without any reset; and the two-page document `["1...7 Aushub", "3,50 m3"]`
yields one record with page 1 carrying quantity `"3,50"` and unit `"m3"`. -/
theorem C4_cross_page_continuity (clean : String → String) (page : Nat) (st : ExtractState)
    (line : String) (c : Row) (g : List Char × List Char) :
    (st.current = some c → sectionMatch (trimL line.toList) = none →
      posMatch (trimL line.toList) = none → qtyMatch (trimL line.toList) = some g →
      processLine clean page st line =
        { st with current := some { c with Quantity := some (String.mk g.1),
                                           Unit := some (String.mk g.2) } }) ∧
    (∀ (total i : Nat) (st0 : ExtractState) (p : String) (ps : List String), p ≠ "" →
      extractGo clean total st0 i (p :: ps) =
        extractGo clean total (process_lines clean st0 (splitLines p) i (i == total))
          (i + 1) ps) ∧
    extract id ["1...7 Aushub", "3,50 m3"] =
      [⟨none, none, "1...7", "Aushub", some "", some "3,50", some "m3", 1⟩] := by
  refine ⟨fun hc h1 h2 h3 => processLine_qty clean page st line c g hc h1 h2 h3, ?_, by decide⟩
  intro total i st0 p ps hp
  simp [extractGo, hp]

/-- Witness for C4: the record opened on page 7 receives the quantity from a
line processed as page 8, keeping `Page = 7`. -/
theorem C4_witness :
    processLine id 8
      ⟨[], none, some ⟨none, none, "1...7", "Aushub", some "", none, none, 7⟩, ""⟩ "3,50 m3" =
      { rows := [], «section» := none,
        current := some ⟨none, none, "1...7", "Aushub", some "", some "3,50", some "m3", 7⟩,
        section_hint := "" } :=
  ((C4_cross_page_continuity id 8
      ⟨[], none, some ⟨none, none, "1...7", "Aushub", some "", none, none, 7⟩, ""⟩ "3,50 m3"
      ⟨none, none, "1...7", "Aushub", some "", none, none, 7⟩
      ("3,50".toList, "m3".toList)).1 rfl (by decide) (by decide) (by decide)).trans (by decide)

/-- C5 counterexample: in the document whose second (last) page yields no
text, the position opened on page 1 is still open at the end of the page loop
and the output table is empty — the claim that a position opened anywhere in
the document always appears in the output is false for this document. -/
theorem C5_counterexample :
    extract id ["1...1 Aushub", ""] = [] ∧
    (extractGo id 2 initState 1 ["1...1 Aushub", ""]).current =
      some ⟨none, none, "1...1", "Aushub", some "", none, none, 1⟩ := by
  decide

/-- C5 (amended): provided the document is non-empty and its last page yields
text, the record still open after the last page's lines is finalized, so no
open record remains after the page loop and `extract` returns the rows of the
final state.  (If the last page yields no text, the `if not text: continue`
guard skips the `is_last_page` flush and an open record is dropped.) -/
theorem C5_final_flush (clean : String → String) (pages : List String)
    (h1 : pages ≠ []) (h2 : pages.getLastD "" ≠ "") :
    (extractGo clean pages.length initState 1 pages).current = none ∧
    extract clean pages = (extractGo clean pages.length initState 1 pages).rows :=
  ⟨extractGo_last_flush clean pages.length pages initState 1 h1 h2 (by omega), rfl⟩

/-- Witness for C5: a one-page document with text on its last page. -/
theorem C5_witness :
    (extractGo id (["1...1 Aushub"] : List String).length initState 1 ["1...1 Aushub"]).current =
      none ∧
    extract id ["1...1 Aushub"] =
      (extractGo id (["1...1 Aushub"] : List String).length initState 1 ["1...1 Aushub"]).rows :=
  C5_final_flush id ["1...1 Aushub"] (by decide) (by decide)

/-- C6: at most one record is open at a time (the state holds a single
`current : Option Row`); a section-header line or a position line processed
while a record is open first finalizes and appends that record and closes
(resp. replaces) it; and one processed line appends at most one row, always
the finalization of the previously open record. -/
theorem C6_finalize_discipline (clean : String → String) (page : Nat) (st : ExtractState)
    (line : String) :
    (∀ c g2, st.current = some c → sectionMatch (trimL line.toList) = some g2 →
      processLine clean page st line =
        { rows := st.rows ++ [finalizeRow clean c], «section» := some (String.mk (trimL g2)),
          current := none, section_hint := "" }) ∧
    (∀ c g, st.current = some c → sectionMatch (trimL line.toList) = none →
      posMatch (trimL line.toList) = some g →
      processLine clean page st line =
        { rows := st.rows ++ [finalizeRow clean c], «section» := st.«section»,
          current := some ⟨st.«section»,
            (if st.section_hint = "" then none
             else some (String.mk (trimL st.section_hint.toList))),
            String.mk g.1, String.mk (trimL g.2), some "", none, none, page⟩,
          section_hint := "" }) ∧
    ((processLine clean page st line).rows = st.rows ∨
      ∃ c, st.current = some c ∧
        (processLine clean page st line).rows = st.rows ++ [finalizeRow clean c]) := by
  refine ⟨?_, ?_, processLine_rows_cases clean page st line⟩
  · intro c g2 hc h
    rw [processLine_section clean page st line g2 h, finalizeState_of_current clean st c hc]
  · intro c g hc h1 h2
    rw [processLine_position clean page st line g h1 h2, finalizeState_of_current clean st c hc]

/-- Witness for C6: a section-header line processed while a record is open
finalizes and appends the open record, sets the section and closes it. -/
theorem C6_witness :
    processLine id 2
      ⟨[], some "Erdarbeiten",
        some ⟨some "Erdarbeiten", none, "1...1", "Aushub", some "", some "3,50", some "m3", 1⟩,
        ""⟩ "12 Maurerarbeiten" =
      { rows := [⟨some "Erdarbeiten", none, "1...1", "Aushub", some "", some "3,50",
                  some "m3", 1⟩],
        «section» := some "Maurerarbeiten", current := none, section_hint := "" } :=
  ((C6_finalize_discipline id 2
      ⟨[], some "Erdarbeiten",
        some ⟨some "Erdarbeiten", none, "1...1", "Aushub", some "", some "3,50", some "m3", 1⟩,
        ""⟩ "12 Maurerarbeiten").1
    ⟨some "Erdarbeiten", none, "1...1", "Aushub", some "", some "3,50", some "m3", 1⟩
    "Maurerarbeiten".toList rfl (by decide)).trans (by decide)

/-- C7 counterexample: the document `"1...1 A\n1...2 B"` finalizes both
records with `DetailedDescription` equal to the empty string (`some ""`), not
the missing marker — so "the detailed-description field is never the empty
string" is false: a record whose description was never accumulated keeps
`""`. -/
theorem C7_counterexample :
    (extract id ["1...1 A\n1...2 B"]).map (fun r => r.DetailedDescription) =
      [some "", some ""] := by
  decide

/-- C7 (amended): whenever finalization runs the boilerplate cleanup (i.e.
the accumulated description is non-empty) and the cleanup result is empty,
the field is set to the missing marker, never to `""`; an empty string can
survive finalization only when the record never accumulated any description
text (the cleanup is skipped for the falsy `""`). -/
theorem C7_cleanup_empty_to_missing (clean : String → String) (r : Row) (s : String) :
    (r.DetailedDescription = some s → s ≠ "" → clean s = "" →
      (finalizeRow clean r).DetailedDescription = none) ∧
    ((finalizeRow clean r).DetailedDescription = some "" → r.DetailedDescription = some "") := by
  constructor
  · intro h hs hc
    simp [finalizeRow, h, hs, hc]
  · intro h
    obtain ⟨s1, s2, s3, s4, dd, s6, s7, s8⟩ := r
    cases dd with
    | none => simpa [finalizeRow] using h
    | some d =>
      by_cases hde : d = ""
      · subst hde; rfl
      · exfalso
        simp [finalizeRow, hde] at h

/-- Witness for C7: a cleanup that empties the description yields the missing
marker. -/
theorem C7_witness :
    (finalizeRow (fun _ => "")
      ⟨none, none, "1...1", "A", some "x", none, none, 1⟩).DetailedDescription = none :=
  (C7_cleanup_empty_to_missing (fun _ => "")
    ⟨none, none, "1...1", "A", some "x", none, none, 1⟩ "x").1 rfl (by decide) rfl

/-- C8: under the fixed classifier priority order, `"12 Maurerarbeiten"`
is classified as a section header from any state (setting the section to
`"Maurerarbeiten"`, opening no record), while `"1...2 Mauerwerk"` is
classified as a position start (opening a record with position `"1...2"` and
main description `"Mauerwerk"`). -/
theorem C8_classification (clean : String → String) (page : Nat) (st : ExtractState) :
    processLine clean page st "12 Maurerarbeiten" =
      { finalizeState clean st with «section» := some "Maurerarbeiten", section_hint := "" } ∧
    (processLine clean page st "12 Maurerarbeiten").current = none ∧
    processLine clean page st "1...2 Mauerwerk" =
      { finalizeState clean st with
        current := some ⟨(finalizeState clean st).«section»,
          (if st.section_hint = "" then none
           else some (String.mk (trimL st.section_hint.toList))),
          "1...2", "Mauerwerk", some "", none, none, page⟩,
        section_hint := "" } := by
  have h1 := processLine_section clean page st "12 Maurerarbeiten" "Maurerarbeiten".toList
    (by decide)
  refine ⟨h1, ?_, ?_⟩
  · rw [h1]
    exact finalizeState_current clean st
  · exact processLine_position clean page st "1...2 Mauerwerk"
      ("1...2".toList, "Mauerwerk".toList) (by decide) (by decide)

/-- C9: `extract_header_from_page` raises the designated `IndexError`
identifying the invalid page and the valid range `1..page_count` for every
out-of-range page number, and returns the page's header data without raising
for every in-range page number. -/
theorem C9_page_range (α : Type) (pages : List α) (hm : α → HeaderData) (n : Int) :
    (¬ (1 ≤ n ∧ n ≤ (pages.length : Int)) →
      extract_header_from_page pages hm n =
        .error ("Page number " ++ intStr n ++ " out of range (1–" ++
                intStr (pages.length : Int) ++ ")")) ∧
    ((1 ≤ n ∧ n ≤ (pages.length : Int)) →
      ∃ d, extract_header_from_page pages hm n = .ok d) := by
  constructor
  · intro h
    simp [extract_header_from_page, h]
  · intro h
    refine ⟨hm (pages.get ⟨(n - 1).toNat, by omega⟩), ?_⟩
    unfold extract_header_from_page
    rw [dif_pos h]

/-- Witness for C9: on a two-page document, page 3 (page count + 1) raises
the range error naming 3 and the range 1–2, while page 2 succeeds. -/
theorem C9_witness :
    extract_header_from_page [(), ()] (fun _ => (⟨[]⟩ : HeaderData)) 3 =
      .error ("Page number " ++ intStr 3 ++ " out of range (1–" ++
              intStr (([(), ()] : List Unit).length : Int) ++ ")") ∧
    ∃ d, extract_header_from_page [(), ()] (fun _ => (⟨[]⟩ : HeaderData)) 2 = .ok d :=
  ⟨(C9_page_range Unit [(), ()] (fun _ => (⟨[]⟩ : HeaderData)) 3).1 (by decide),
   (C9_page_range Unit [(), ()] (fun _ => (⟨[]⟩ : HeaderData)) 2).2 (by decide)⟩

/-- C10: while a record is open, every line matching the quantity/unit
pattern (and no earlier classifier) overwrites the record's quantity and
unit; after a non-empty run of such lines the record carries the last line's
quantity and unit, no row is appended, and no extra record is created. -/
theorem C10_quantity_overwrite (clean : String → String) (page : Nat) :
    ∀ (lines : List String) (st : ExtractState) (c : Row),
      st.current = some c → lines ≠ [] →
      (∀ l ∈ lines, sectionMatch (trimL l.toList) = none ∧ posMatch (trimL l.toList) = none ∧
        (qtyMatch (trimL l.toList)).isSome) →
      (lines.foldl (processLine clean page) st).rows = st.rows ∧
      ∃ g, qtyMatch (trimL (lines.getLastD "").toList) = some g ∧
        (lines.foldl (processLine clean page) st).current =
          some { c with Quantity := some (String.mk g.1), Unit := some (String.mk g.2) } := by
  intro lines
  induction lines with
  | nil => intro st c _ h _; exact absurd rfl h
  | cons a rest ih =>
    intro st c hc _ hall
    obtain ⟨h1, h2, h3⟩ := hall a (by simp)
    obtain ⟨g, hg⟩ := Option.isSome_iff_exists.mp h3
    have hstep := processLine_qty clean page st a c g hc h1 h2 hg
    cases rest with
    | nil =>
      refine ⟨by simp [hstep], g, by simpa using hg, by simp [hstep]⟩
    | cons b u =>
      have hrest := ih
        { st with current := some { c with Quantity := some (String.mk g.1),
                                           Unit := some (String.mk g.2) } }
        { c with Quantity := some (String.mk g.1), Unit := some (String.mk g.2) }
        rfl (by simp) (fun l hl => hall l (by simp [hl]))
      obtain ⟨hr, g2, hg2, hcur⟩ := hrest
      rw [List.foldl_cons, hstep]
      refine ⟨by simpa using hr, g2, ?_, ?_⟩
      · rw [List.getLastD_cons, getLastD_indep (b :: u) (by simp) a ""]
        exact hg2
      · rw [hcur, row_qty_overwrite]

/-- Witness for C10: two quantity lines in a row; the record ends with the
second line's quantity and unit and no row is appended. -/
theorem C10_witness :
    ((["3,50 m3", "7,25 kg"].foldl (processLine id 1)
        ⟨[], none, some ⟨none, none, "1...1", "x", some "", none, none, 1⟩, ""⟩).rows =
      (⟨[], none, some ⟨none, none, "1...1", "x", some "", none, none, 1⟩, ""⟩ :
        ExtractState).rows ∧
      ∃ g, qtyMatch (trimL ((["3,50 m3", "7,25 kg"] : List String).getLastD "").toList) =
          some g ∧
        (["3,50 m3", "7,25 kg"].foldl (processLine id 1)
          ⟨[], none, some ⟨none, none, "1...1", "x", some "", none, none, 1⟩, ""⟩).current =
          some { (⟨none, none, "1...1", "x", some "", none, none, 1⟩ : Row) with
            Quantity := some (String.mk g.1), Unit := some (String.mk g.2) }) :=
  C10_quantity_overwrite id 1 ["3,50 m3", "7,25 kg"]
    ⟨[], none, some ⟨none, none, "1...1", "x", some "", none, none, 1⟩, ""⟩
    ⟨none, none, "1...1", "x", some "", none, none, 1⟩ rfl (by decide) (by decide)

/-! ### Helper lemmas: decimal digits and character strings -/

theorem charVal_digitChar (d : Nat) (h : d < 10) : charVal (digitChar d) = d := by
  interval_cases d <;> rfl

theorem isDigit_digitChar (d : Nat) (h : d < 10) : (digitChar d).isDigit = true := by
  interval_cases d <;> rfl

theorem isDigit_facts (c : Char) (h : c.isDigit = true) :
    c.isWhitespace = false ∧ c ≠ ',' ∧ c ≠ '.' ∧ c ≠ ' ' ∧ c ≠ '-' ∧ c ≠ '+' := by
  refine ⟨?_, ?_, ?_, ?_, ?_, ?_⟩
  · cases hw : c.isWhitespace
    · rfl
    · exfalso
      have hws : c = ' ' ∨ c = '\t' ∨ c = '\r' ∨ c = '\n' := by
        simpa [Char.isWhitespace, or_assoc] using hw
      rcases hws with rfl | rfl | rfl | rfl <;> exact absurd h (by decide)
  · intro hc; rw [hc] at h; exact absurd h (by decide)
  · intro hc; rw [hc] at h; exact absurd h (by decide)
  · intro hc; rw [hc] at h; exact absurd h (by decide)
  · intro hc; rw [hc] at h; exact absurd h (by decide)
  · intro hc; rw [hc] at h; exact absurd h (by decide)

theorem BEvalC_go (l : List Char) : ∀ a : Nat,
    l.foldl (fun a c => a * 10 + charVal c) a = a * 10 ^ l.length + BEvalC l := by
  induction l with
  | nil => intro a; simp [BEvalC]
  | cons c t ih =>
    intro a
    have h1 : BEvalC (c :: t) = charVal c * 10 ^ t.length + BEvalC t := by
      show List.foldl _ (0 * 10 + charVal c) t = _
      rw [ih (0 * 10 + charVal c)]
      ring_nf
    rw [List.foldl_cons, ih (a * 10 + charVal c), h1, List.length_cons]
    ring

theorem BEvalC_append (x y : List Char) :
    BEvalC (x ++ y) = BEvalC x * 10 ^ y.length + BEvalC y := by
  unfold BEvalC
  rw [List.foldl_append]
  exact BEvalC_go y _

theorem BEvalC_snoc (x : List Char) (c : Char) :
    BEvalC (x ++ [c]) = BEvalC x * 10 + charVal c := by
  rw [BEvalC_append]
  simp [BEvalC]

theorem BEvalC_replicate_zeros (k : Nat) : BEvalC (List.replicate k '0') = 0 := by
  induction k with
  | zero => rfl
  | succ n ih =>
    rw [List.replicate_succ', BEvalC_snoc, ih]
    rfl

theorem revDigitsAux_lt (f : Nat) : ∀ n d : Nat, d ∈ revDigitsAux f n → d < 10 := by
  induction f with
  | zero => intro n d h; simp [revDigitsAux] at h
  | succ f ih =>
    intro n d h
    unfold revDigitsAux at h
    by_cases hn : n = 0
    · simp [hn] at h
    · rw [if_neg hn] at h
      rcases List.mem_cons.mp h with rfl | h
      · exact Nat.mod_lt _ (by omega)
      · exact ih _ _ h

theorem BEvalC_revDigitsAux (f : Nat) : ∀ n : Nat, n ≤ f →
    BEvalC (((revDigitsAux f n).map digitChar).reverse) = n := by
  induction f with
  | zero =>
    intro n h
    obtain rfl : n = 0 := by omega
    rfl
  | succ f ih =>
    intro n h
    unfold revDigitsAux
    by_cases hn : n = 0
    · simp [hn, BEvalC]
    · rw [if_neg hn]
      simp only [List.map_cons, List.reverse_cons]
      rw [BEvalC_snoc, ih (n / 10) (by omega), charVal_digitChar _ (Nat.mod_lt _ (by omega))]
      omega

theorem BEvalC_natChars (n : Nat) : BEvalC (natChars n) = n := by
  unfold natChars revDigits
  by_cases hn : n = 0
  · subst hn; rfl
  · rw [if_neg hn]
    exact BEvalC_revDigitsAux n n le_rfl

theorem revDigitsAux_length (f : Nat) : ∀ n e : Nat, n ≤ f → n < 10 ^ e →
    (revDigitsAux f n).length ≤ e := by
  induction f with
  | zero =>
    intro n e h _
    obtain rfl : n = 0 := by omega
    simp [revDigitsAux]
  | succ f ih =>
    intro n e h he
    unfold revDigitsAux
    by_cases hn : n = 0
    · simp [hn]
    · rw [if_neg hn]
      cases e with
      | zero => simp at he; omega
      | succ e' =>
        simp only [List.length_cons]
        have hdiv : n / 10 < 10 ^ e' := by
          rw [Nat.div_lt_iff_lt_mul (by norm_num)]
          calc n < 10 ^ (e' + 1) := he
          _ = 10 ^ e' * 10 := by ring
        have := ih (n / 10) e' (by omega) hdiv
        omega

theorem mem_natChars (n : Nat) (c : Char) (h : c ∈ natChars n) :
    ∃ d, d < 10 ∧ c = digitChar d := by
  unfold natChars revDigits at h
  by_cases hn : n = 0
  · rw [if_pos hn] at h
    simp at h
    exact ⟨0, by omega, by simp [h]; rfl⟩
  · rw [if_neg hn, List.mem_reverse] at h
    obtain ⟨d, hd, rfl⟩ := List.mem_map.mp h
    exact ⟨d, revDigitsAux_lt _ _ _ hd, rfl⟩

theorem natChars_ne_nil (n : Nat) : natChars n ≠ [] := by
  unfold natChars revDigits
  by_cases hn : n = 0
  · simp [hn]
  · rw [if_neg hn]
    cases n with
    | zero => exact absurd rfl hn
    | succ k =>
      unfold revDigitsAux
      rw [if_neg hn]
      simp

theorem natChars_length_le (n e : Nat) (he : 1 ≤ e) (h : n < 10 ^ e) :
    (natChars n).length ≤ e := by
  unfold natChars revDigits
  by_cases hn : n = 0
  · simp [hn]; omega
  · rw [if_neg hn]
    simpa using revDigitsAux_length n n e le_rfl h

theorem padZeros_length (l : List Char) (e : Nat) (h : l.length ≤ e) :
    (padZeros l e).length = e := by
  simp [padZeros]
  omega

theorem mem_padZeros (l : List Char) (e : Nat) (c : Char) (h : c ∈ padZeros l e) :
    c = '0' ∨ c ∈ l := by
  rcases List.mem_append.mp h with h | h
  · exact Or.inl (List.eq_of_mem_replicate h)
  · exact Or.inr h

theorem BEvalC_padZeros (l : List Char) (e : Nat) : BEvalC (padZeros l e) = BEvalC l := by
  unfold padZeros
  rw [BEvalC_append, BEvalC_replicate_zeros]
  simp

theorem dropWhile_eq_self_of {p : Char → Bool} {l : List Char}
    (h : ∀ c ∈ l, p c = false) : l.dropWhile p = l := by
  cases l with
  | nil => rfl
  | cons a t =>
    rw [List.dropWhile_cons, h a (by simp)]
    simp

theorem trimL_eq_self {l : List Char} (h : ∀ c ∈ l, c.isWhitespace = false) :
    trimL l = l := by
  unfold trimL
  rw [dropWhile_eq_self_of h, dropWhile_eq_self_of (fun c hc => h c (List.mem_reverse.mp hc)),
    List.reverse_reverse]

theorem containsC_eq_false {c : Char} {l : List Char} (h : ∀ x ∈ l, x ≠ c) :
    containsC c l = false := by
  unfold containsC
  rw [List.any_eq_false]
  intro x hx
  simpa using h x hx

theorem containsC_eq_true {c : Char} {l : List Char} (h : c ∈ l) : containsC c l = true := by
  unfold containsC
  rw [List.any_eq_true]
  exact ⟨c, h, by simp⟩

theorem takeWhile_append_of {p : Char → Bool} (A : List Char) {x : Char} (B : List Char)
    (hA : ∀ c ∈ A, p c = true) (hx : p x = false) :
    (A ++ x :: B).takeWhile p = A := by
  induction A with
  | nil => simp [List.takeWhile_cons, hx]
  | cons a t ih =>
    rw [List.cons_append, List.takeWhile_cons, hA a (by simp)]
    simp [ih (fun c hc => hA c (by simp [hc]))]

theorem dropWhile_append_of {p : Char → Bool} (A : List Char) {x : Char} (B : List Char)
    (hA : ∀ c ∈ A, p c = true) (hx : p x = false) :
    (A ++ x :: B).dropWhile p = x :: B := by
  induction A with
  | nil => simp [List.dropWhile_cons, hx]
  | cons a t ih =>
    rw [List.cons_append, List.dropWhile_cons, hA a (by simp)]
    simp [ih (fun c hc => hA c (by simp [hc]))]

theorem span_append_of {p : Char → Bool} (A : List Char) {x : Char} (B : List Char)
    (hA : ∀ c ∈ A, p c = true) (hx : p x = false) :
    (A ++ x :: B).span p = (A, x :: B) := by
  rw [List.span_eq_take_drop, takeWhile_append_of A B hA hx, dropWhile_append_of A B hA hx]

theorem rsplitLast_append (c : Char) (A B : List Char) (hB : ∀ x ∈ B, x ≠ c) :
    rsplitLast c (A ++ c :: B) = (A, B) := by
  unfold rsplitLast
  have hrev : (A ++ c :: B).reverse = B.reverse ++ c :: A.reverse := by
    rw [List.reverse_append, List.reverse_cons, List.append_assoc]
    simp
  rw [hrev, span_append_of B.reverse A.reverse
    (fun x hx => by simp [hB x (List.mem_reverse.mp hx)]) (by simp)]
  simp

theorem splitFirstDot_append (A B : List Char) (hA : ∀ x ∈ A, x ≠ '.') :
    splitFirstDot (A ++ '.' :: B) = (A, B) := by
  unfold splitFirstDot
  rw [span_append_of A B (fun x hx => by simp [hA x hx]) (by simp)]
  rfl

theorem stripSign_of_ne (c : Char) (t : List Char) (h1 : c ≠ '-') (h2 : c ≠ '+') :
    stripSign (c :: t) = (false, c :: t) := by
  show (if (c == '-') = true then (true, t)
        else if (c == '+') = true then (false, t) else (false, c :: t)) = (false, c :: t)
  rw [if_neg (by simpa using h1), if_neg (by simpa using h2)]

theorem canonDecN_mul10 (n : Nat) : canonDecN (n * 10) 1 = (n, 0) := by
  have h0 : n * 10 % 10 = 0 := by omega
  have h1 : n * 10 / 10 = n := by omega
  unfold canonDecN
  rw [if_pos h0, h1]
  rfl

theorem canonDecN_of_ne (n e : Nat) (h : n % 10 ≠ 0) : canonDecN n (e + 1) = (n, e + 1) := by
  unfold canonDecN
  rw [if_neg h]

theorem canonDecN_canon (e : Nat) : ∀ n : Nat,
    (canonDecN n e).2 = 0 ∨ (canonDecN n e).1 % 10 ≠ 0 := by
  induction e with
  | zero => intro n; exact Or.inl rfl
  | succ e ih =>
    intro n
    unfold canonDecN
    by_cases h : n % 10 = 0
    · rw [if_pos h]; exact ih _
    · rw [if_neg h]; exact Or.inr h

theorem isDigit_not_exp (c : Char) (h : c.isDigit = true) : c ≠ 'e' ∧ c ≠ 'E' := by
  constructor <;> intro hc <;> rw [hc] at h <;> exact absurd h (by decide)

theorem takeWhile_eq_self_of {p : Char → Bool} {l : List Char}
    (h : ∀ c ∈ l, p c = true) : l.takeWhile p = l := by
  induction l with
  | nil => rfl
  | cons a t ih =>
    rw [List.takeWhile_cons, h a (by simp)]
    simp [ih (fun c hc => h c (by simp [hc]))]

theorem dropWhile_eq_nil_of {p : Char → Bool} {l : List Char}
    (h : ∀ c ∈ l, p c = true) : l.dropWhile p = [] := by
  induction l with
  | nil => rfl
  | cons a t ih =>
    rw [List.dropWhile_cons, h a (by simp)]
    simp [ih (fun c hc => h c (by simp [hc]))]

theorem span_eq_self_of {p : Char → Bool} {l : List Char}
    (h : ∀ c ∈ l, p c = true) : l.span p = (l, []) := by
  rw [List.span_eq_take_drop, takeWhile_eq_self_of h, dropWhile_eq_nil_of h]

theorem scaleDec_exp_zero (v f : Nat) : scaleDec v f 0 = canonDecN v f := by
  unfold scaleDec
  rw [if_pos (by omega)]
  cases f with
  | zero => simp [canonDecN]
  | succ g =>
    rw [if_neg (by omega)]
    simp

theorem scaleDec_canon (v f : Nat) (k : Int) :
    (scaleDec v f k).2 = 0 ∨ (scaleDec v f k).1 % 10 ≠ 0 := by
  unfold scaleDec
  split
  · split
    · exact Or.inl rfl
    · exact canonDecN_canon _ _
  · exact canonDecN_canon _ _

theorem normalize_parse_digits (sgn : Bool) (D F : List Char)
    (hD : ∀ c ∈ D, c.isDigit = true) (hF : ∀ c ∈ F, c.isDigit = true)
    (hDne : D ≠ []) (hFlen : F.length ≤ 2) :
    normalizeChars (((if sgn then ['-'] else []) ++ D) ++ '.' :: F) =
      ((if sgn then ['-'] else []) ++ D) ++ '.' :: F ∧
    parseDecChars (((if sgn then ['-'] else []) ++ D) ++ '.' :: F) =
      some (intOfSign sgn (canonDecN (BEvalC (D ++ F)) F.length).1,
            (canonDecN (BEvalC (D ++ F)) F.length).2) := by
  have hAchars : ∀ c ∈ (if sgn then ['-'] else ([] : List Char)) ++ D,
      c.isDigit = true ∨ c = '-' := by
    intro c hc
    rcases List.mem_append.mp hc with hc | hc
    · cases sgn
      · simp at hc
      · simp at hc
        exact Or.inr hc
    · exact Or.inl (hD c hc)
  have hno_ws : ∀ c ∈ ((if sgn then ['-'] else ([] : List Char)) ++ D) ++ '.' :: F,
      c.isWhitespace = false := by
    intro c hc
    rcases List.mem_append.mp hc with hc | hc
    · rcases hAchars c hc with h | rfl
      · exact (isDigit_facts c h).1
      · decide
    · rcases List.mem_cons.mp hc with rfl | hc
      · decide
      · exact (isDigit_facts c (hF c hc)).1
  have hno_comma : ∀ c ∈ ((if sgn then ['-'] else ([] : List Char)) ++ D) ++ '.' :: F,
      c ≠ ',' := by
    intro c hc
    rcases List.mem_append.mp hc with hc | hc
    · rcases hAchars c hc with h | rfl
      · exact (isDigit_facts c h).2.1
      · decide
    · rcases List.mem_cons.mp hc with rfl | hc
      · decide
      · exact (isDigit_facts c (hF c hc)).2.1
  have hF_nodot : ∀ x ∈ F, x ≠ '.' := fun x hx => (isDigit_facts x (hF x hx)).2.2.1
  have hD_nodot : ∀ x ∈ D, x ≠ '.' := fun x hx => (isDigit_facts x (hD x hx)).2.2.1
  have hA_clean : ∀ c ∈ (if sgn then ['-'] else ([] : List Char)) ++ D,
      (!(c == '.') && !(c == ' ')) = true := by
    intro c hc
    rcases hAchars c hc with h | rfl
    · have hf := isDigit_facts c h
      simp [hf.2.2.1, hf.2.2.2.1]
    · decide
  have hcomma : containsC ',' (((if sgn then ['-'] else []) ++ D) ++ '.' :: F) = false :=
    containsC_eq_false hno_comma
  have hdot : containsC '.' (((if sgn then ['-'] else []) ++ D) ++ '.' :: F) = true :=
    containsC_eq_true (by simp)
  have hsplit : rsplitLast '.' (((if sgn then ['-'] else []) ++ D) ++ '.' :: F) =
      ((if sgn then ['-'] else []) ++ D, F) :=
    rsplitLast_append '.' _ F hF_nodot
  have hclean : removeDotsSpaces ((if sgn then ['-'] else []) ++ D) =
      (if sgn then ['-'] else []) ++ D := List.filter_eq_self.mpr hA_clean
  constructor
  · simp only [normalizeChars]
    rw [trimL_eq_self hno_ws, hcomma, hdot, hsplit]
    simp [hFlen, hclean]
  · simp only [parseDecChars]
    rw [trimL_eq_self hno_ws]
    have hstrip : stripSign (((if sgn then ['-'] else []) ++ D) ++ '.' :: F) =
        (sgn, D ++ '.' :: F) := by
      cases sgn
      · obtain ⟨c0, D', rfl⟩ := List.exists_cons_of_ne_nil hDne
        have hf := isDigit_facts c0 (hD c0 (by simp))
        simpa using stripSign_of_ne c0 (D' ++ '.' :: F) hf.2.2.2.2.1 hf.2.2.2.2.2
      · rfl
    rw [hstrip]
    have hnoexp : ∀ c ∈ D ++ '.' :: F, (!(c == 'e' || c == 'E')) = true := by
      intro c hc
      rcases List.mem_append.mp hc with hc | hc
      · have hf := isDigit_not_exp c (hD c hc)
        simp [hf.1, hf.2]
      · rcases List.mem_cons.mp hc with rfl | hc
        · decide
        · have hf := isDigit_not_exp c (hF c hc)
          simp [hf.1, hf.2]
    have hspan : (D ++ '.' :: F).span (fun c => !(c == 'e' || c == 'E')) =
        (D ++ '.' :: F, []) := span_eq_self_of hnoexp
    have hdot2 : containsC '.' (D ++ '.' :: F) = true := containsC_eq_true (by simp)
    have hsplit2 : splitFirstDot (D ++ '.' :: F) = (D, F) := splitFirstDot_append D F hD_nodot
    have hFnodot2 : containsC '.' F = false := containsC_eq_false hF_nodot
    have hDne2 : D.isEmpty = false := by
      cases D
      · exact absurd rfl hDne
      · rfl
    have hDdig : D.all Char.isDigit = true := List.all_eq_true.mpr hD
    have hFdig : F.all Char.isDigit = true := List.all_eq_true.mpr hF
    dsimp only
    rw [hspan]
    dsimp only [parseExpPart]
    rw [hdot2, hsplit2]
    simp only [hFnodot2, hDne2, hDdig, hFdig]
    simp [scaleDec_exp_zero]

theorem qtyCoerce_vnum_roundtrip (m : Int) (e : Nat)
    (hcanon : e = 0 ∨ m.natAbs % 10 ≠ 0) (he : e ≤ 2)
    (hsmall : m.natAbs < 10 ^ (16 + e)) :
    qtyCoerce (.vnum m e) = .vnum m e := by
  have hDdig : ∀ k : Nat, ∀ c ∈ natChars k, c.isDigit = true := by
    intro k c hc
    obtain ⟨d, hd, rfl⟩ := mem_natChars _ c hc
    exact isDigit_digitChar d hd
  have key : parseDecChars (normalizeChars (renderDecC m e)) = some (m, e) := by
    obtain ⟨sgn, hsgn, hsval⟩ : ∃ sgn : Bool,
        (if m < 0 then ['-'] else []) = (if sgn then ['-'] else ([] : List Char)) ∧
        intOfSign sgn m.natAbs = m := by
      rcases Int.lt_or_le m 0 with hm | hm
      · refine ⟨true, by rw [if_pos hm]; rfl, ?_⟩
        show -(m.natAbs : Int) = m
        omega
      · refine ⟨false, by rw [if_neg (by omega)]; rfl, ?_⟩
        show (m.natAbs : Int) = m
        omega
    cases e with
    | zero =>
      have hplain : m.natAbs = 0 ∨
          (10 ^ (0 : Nat) ≤ m.natAbs * 10 ^ 4 ∧ m.natAbs < 10 ^ (16 + 0)) := by
        by_cases hm0 : m.natAbs = 0
        · exact Or.inl hm0
        · refine Or.inr ⟨?_, hsmall⟩
          have h1 : 1 ≤ m.natAbs * 10 ^ 4 :=
            Nat.one_le_iff_ne_zero.mpr (Nat.mul_ne_zero hm0 (by norm_num))
          simpa using h1
      have hrender : renderDecC m 0 =
          ((if sgn then ['-'] else []) ++ natChars m.natAbs) ++ '.' :: ['0'] := by
        unfold renderDecC
        rw [if_pos hplain, if_pos rfl, hsgn]
        exact (List.append_assoc _ _ _).symm
      obtain ⟨hn, hp⟩ := normalize_parse_digits sgn (natChars m.natAbs) ['0']
        (hDdig _) (by intro c hc; simp at hc; subst hc; rfl)
        (natChars_ne_nil _) (by simp)
      have hval : BEvalC (natChars m.natAbs ++ ['0']) = m.natAbs * 10 := by
        rw [BEvalC_snoc, BEvalC_natChars]
        rfl
      rw [hrender, hn, hp, hval]
      have hl : (['0'] : List Char).length = 1 := rfl
      rw [hl, canonDecN_mul10, hsval]
    | succ e' =>
      have hne : m.natAbs % 10 ≠ 0 := by
        rcases hcanon with h | h
        · exact absurd h (by omega)
        · exact h
      have hrlt : m.natAbs % 10 ^ (e' + 1) < 10 ^ (e' + 1) := Nat.mod_lt _ (by positivity)
      have hflen : (padZeros (natChars (m.natAbs % 10 ^ (e' + 1))) (e' + 1)).length = e' + 1 :=
        padZeros_length _ _ (natChars_length_le _ _ (by omega) hrlt)
      have hm1 : m.natAbs ≠ 0 := by
        intro h0
        rw [h0] at hne
        exact hne rfl
      have hplain : m.natAbs = 0 ∨
          (10 ^ (e' + 1) ≤ m.natAbs * 10 ^ 4 ∧ m.natAbs < 10 ^ (16 + (e' + 1))) := by
        refine Or.inr ⟨?_, hsmall⟩
        calc (10 : Nat) ^ (e' + 1) ≤ 10 ^ 2 := Nat.pow_le_pow_right (by norm_num) (by omega)
        _ ≤ 1 * 10 ^ 4 := by norm_num
        _ ≤ m.natAbs * 10 ^ 4 :=
            Nat.mul_le_mul_right _ (Nat.one_le_iff_ne_zero.mpr hm1)
      have hrender : renderDecC m (e' + 1) =
          ((if sgn then ['-'] else []) ++ natChars (m.natAbs / 10 ^ (e' + 1))) ++
            '.' :: padZeros (natChars (m.natAbs % 10 ^ (e' + 1))) (e' + 1) := by
        unfold renderDecC
        rw [if_pos hplain, if_neg (show ¬(e' + 1 = 0) by omega), hsgn]
        exact (List.append_assoc _ _ _).symm
      obtain ⟨hn, hp⟩ := normalize_parse_digits sgn (natChars (m.natAbs / 10 ^ (e' + 1)))
        (padZeros (natChars (m.natAbs % 10 ^ (e' + 1))) (e' + 1))
        (hDdig _)
        (by
          intro c hc
          rcases mem_padZeros _ _ _ hc with rfl | hc
          · rfl
          · exact hDdig _ c hc)
        (natChars_ne_nil _) (by rw [hflen]; omega)
      have hval : BEvalC (natChars (m.natAbs / 10 ^ (e' + 1)) ++
          padZeros (natChars (m.natAbs % 10 ^ (e' + 1))) (e' + 1)) = m.natAbs := by
        rw [BEvalC_append, BEvalC_padZeros, BEvalC_natChars, BEvalC_natChars, hflen]
        exact Nat.div_add_mod' _ _
      rw [hrender, hn, hp, hval, hflen, canonDecN_of_ne _ _ hne, hsval]
  show toNumericVal (normalize_number (renderDec m e)) = .vnum m e
  unfold toNumericVal normalize_number renderDec
  simp only [show ∀ l : List Char, (String.mk l).toList = l from fun _ => rfl]
  rw [key]

/-! ### Helper lemmas: hint propagation -/

theorem firstHintV_eq_none {k : Option Int} {l : List DRow} :
    firstHintV k l = none ↔ ∀ r ∈ l, r.level1 = k → r.SectionHint = .na := by
  induction l with
  | nil =>
    constructor
    · intro _ r hr
      simp at hr
    · intro _
      rfl
  | cons r rest ih =>
    unfold firstHintV
    by_cases h : r.level1 = k ∧ r.SectionHint ≠ .na
    · rw [if_pos h]
      constructor
      · intro hcontra
        exact absurd hcontra (by simp)
      · intro hall
        exact absurd (hall r (by simp) h.1) h.2
    · rw [if_neg h]
      rw [ih]
      constructor
      · intro hall x hx hk
        rcases List.mem_cons.mp hx with rfl | hx
        · by_contra hna
          exact h ⟨hk, hna⟩
        · exact hall x hx hk
      · intro hall x hx hk
        exact hall x (by simp [hx]) hk

theorem firstHintV_some_mem {k : Option Int} {l : List DRow} {v : Val}
    (h : firstHintV k l = some v) :
    ∃ x ∈ l, x.level1 = k ∧ x.SectionHint = v ∧ v ≠ .na := by
  induction l with
  | nil => simp [firstHintV] at h
  | cons r rest ih =>
    unfold firstHintV at h
    by_cases hc : r.level1 = k ∧ r.SectionHint ≠ .na
    · rw [if_pos hc] at h
      simp only [Option.some.injEq] at h
      exact ⟨r, by simp, hc.1, h, h ▸ hc.2⟩
    · rw [if_neg hc] at h
      obtain ⟨x, hx, hk, hv, hna⟩ := ih h
      exact ⟨x, by simp [hx], hk, hv, hna⟩

theorem lastHintV_eq_none {k : Option Int} {l : List DRow} :
    lastHintV k l = none ↔ ∀ r ∈ l, r.level1 = k → r.SectionHint = .na := by
  unfold lastHintV
  rw [firstHintV_eq_none]
  constructor
  · intro h r hr
    exact h r (List.mem_reverse.mpr hr)
  · intro h r hr
    exact h r (List.mem_reverse.mp hr)

theorem lastHintV_some_mem {k : Option Int} {l : List DRow} {v : Val}
    (h : lastHintV k l = some v) :
    ∃ x ∈ l, x.level1 = k ∧ x.SectionHint = v ∧ v ≠ .na := by
  obtain ⟨x, hx, hk, hv, hna⟩ := firstHintV_some_mem h
  exact ⟨x, List.mem_reverse.mp hx, hk, hv, hna⟩

theorem lastHintV_snoc {k : Option Int} (l : List DRow) (r : DRow) :
    lastHintV k (l ++ [r]) =
      if r.level1 = k ∧ r.SectionHint ≠ .na then some r.SectionHint else lastHintV k l := by
  unfold lastHintV
  rw [List.reverse_append]
  rfl

theorem fillGo_na_sources : ∀ (t p : List DRow) (r' : DRow), r' ∈ fillGo p t →
    r'.SectionHint = .na → ∀ x ∈ p ++ t, x.level1 = r'.level1 → x.SectionHint = .na := by
  intro t
  induction t with
  | nil =>
    intro p r' h
    simp [fillGo] at h
  | cons r rest ih =>
    intro p r' h hna x hx hxk
    cases hl : lastHintV r.level1 (p ++ [r]) with
    | some v =>
      simp only [fillGo, hl] at h
      rcases List.mem_cons.mp h with rfl | h
      · obtain ⟨y, _, _, _, hvna⟩ := lastHintV_some_mem hl
        have hv : v = Val.na := hna
        exact absurd hv hvna
      · exact ih (p ++ [r]) r' h hna x (by simp at hx ⊢; tauto) hxk
    | none =>
      cases hf : firstHintV r.level1 rest with
      | some v =>
        simp only [fillGo, hl, hf] at h
        rcases List.mem_cons.mp h with rfl | h
        · obtain ⟨y, _, _, _, hvna⟩ := firstHintV_some_mem hf
          have hv : v = Val.na := hna
          exact absurd hv hvna
        · exact ih (p ++ [r]) r' h hna x (by simp at hx ⊢; tauto) hxk
      | none =>
        simp only [fillGo, hl, hf] at h
        rcases List.mem_cons.mp h with rfl | h
        · rw [lastHintV_eq_none] at hl
          rw [firstHintV_eq_none] at hf
          have hxk' : x.level1 = r.level1 := hxk
          rcases List.mem_append.mp hx with hxp | hxc
          · exact hl x (by simp [hxp]) hxk'
          · rcases List.mem_cons.mp hxc with rfl | hxr
            · exact hl x (by simp) hxk'
            · exact hf x hxr hxk'
        · exact ih (p ++ [r]) r' h hna x (by simp at hx ⊢; tauto) hxk

theorem fillGo_keys_na (k : Option Int) : ∀ (t p : List DRow),
    (∀ x ∈ p ++ t, x.level1 = k → x.SectionHint = .na) →
    ∀ r' ∈ fillGo p t, r'.level1 = k → r'.SectionHint = .na := by
  intro t
  induction t with
  | nil =>
    intro p _ r' h
    simp [fillGo] at h
  | cons r rest ih =>
    intro p hall r' h hk
    have hall' : ∀ x ∈ (p ++ [r]) ++ rest, x.level1 = k → x.SectionHint = .na := by
      intro x hx
      apply hall x
      simp at hx ⊢
      tauto
    cases hl : lastHintV r.level1 (p ++ [r]) with
    | some v =>
      simp only [fillGo, hl] at h
      rcases List.mem_cons.mp h with rfl | h
      · obtain ⟨y, hy, hyk, hyv, hvna⟩ := lastHintV_some_mem hl
        have hk' : r.level1 = k := hk
        have hyna : y.SectionHint = .na :=
          hall y (by simp at hy ⊢; tauto) (by rw [hyk, hk'])
        exact absurd (hyv.symm.trans hyna) hvna
      · exact ih (p ++ [r]) hall' r' h hk
    | none =>
      cases hf : firstHintV r.level1 rest with
      | some v =>
        simp only [fillGo, hl, hf] at h
        rcases List.mem_cons.mp h with rfl | h
        · obtain ⟨y, hy, hyk, hyv, hvna⟩ := firstHintV_some_mem hf
          have hk' : r.level1 = k := hk
          have hyna : y.SectionHint = .na :=
            hall y (by simp [hy]) (by rw [hyk, hk'])
          exact absurd (hyv.symm.trans hyna) hvna
        · exact ih (p ++ [r]) hall' r' h hk
      | none =>
        simp only [fillGo, hl, hf] at h
        rcases List.mem_cons.mp h with rfl | h
        · rfl
        · exact ih (p ++ [r]) hall' r' h hk

theorem fillGo_hint_from : ∀ (t p : List DRow) (r' : DRow), r' ∈ fillGo p t →
    r'.SectionHint = .na ∨ ∃ x ∈ p ++ t, x.SectionHint = r'.SectionHint := by
  intro t
  induction t with
  | nil =>
    intro p r' h
    simp [fillGo] at h
  | cons r rest ih =>
    intro p r' h
    cases hl : lastHintV r.level1 (p ++ [r]) with
    | some v =>
      simp only [fillGo, hl] at h
      rcases List.mem_cons.mp h with rfl | h
      · obtain ⟨y, hy, _, hyv, _⟩ := lastHintV_some_mem hl
        exact Or.inr ⟨y, by simp at hy ⊢; tauto, hyv⟩
      · rcases ih (p ++ [r]) r' h with hna | ⟨x, hx, hxe⟩
        · exact Or.inl hna
        · exact Or.inr ⟨x, by simp at hx ⊢; tauto, hxe⟩
    | none =>
      cases hf : firstHintV r.level1 rest with
      | some v =>
        simp only [fillGo, hl, hf] at h
        rcases List.mem_cons.mp h with rfl | h
        · obtain ⟨y, hy, _, hyv, _⟩ := firstHintV_some_mem hf
          exact Or.inr ⟨y, by simp [hy], hyv⟩
        · rcases ih (p ++ [r]) r' h with hna | ⟨x, hx, hxe⟩
          · exact Or.inl hna
          · exact Or.inr ⟨x, by simp at hx ⊢; tauto, hxe⟩
      | none =>
        simp only [fillGo, hl, hf] at h
        rcases List.mem_cons.mp h with rfl | h
        · exact Or.inl rfl
        · rcases ih (p ++ [r]) r' h with hna | ⟨x, hx, hxe⟩
          · exact Or.inl hna
          · exact Or.inr ⟨x, by simp at hx ⊢; tauto, hxe⟩

theorem fillGo_mem : ∀ (t p : List DRow) (r' : DRow), r' ∈ fillGo p t →
    ∃ r ∈ t, r' = { r with SectionHint := r'.SectionHint } := by
  intro t
  induction t with
  | nil =>
    intro p r' h
    simp [fillGo] at h
  | cons r rest ih =>
    intro p r' h
    simp only [fillGo] at h
    rcases List.mem_cons.mp h with rfl | h
    · exact ⟨r, by simp, rfl⟩
    · obtain ⟨x, hx, he⟩ := ih (p ++ [r]) r' h
      exact ⟨x, by simp [hx], he⟩

theorem fillGo_fixed : ∀ (t q : List DRow),
    (∀ r ∈ q ++ t, r.SectionHint = .na →
      ∀ x ∈ q ++ t, x.level1 = r.level1 → x.SectionHint = .na) →
    fillGo q t = t := by
  intro t
  induction t with
  | nil => intro q _; rfl
  | cons r rest ih =>
    intro q hP
    have hP' : ∀ x ∈ (q ++ [r]) ++ rest, x.SectionHint = .na →
        ∀ y ∈ (q ++ [r]) ++ rest, y.level1 = x.level1 → y.SectionHint = .na := by
      intro x hx hxna y hy
      exact hP x (by simp at hx ⊢; tauto) hxna y (by simp at hy ⊢; tauto)
    have htail := ih (q ++ [r]) hP'
    by_cases hna : r.SectionHint = .na
    · have hall := hP r (by simp) hna
      have hl : lastHintV r.level1 (q ++ [r]) = none := by
        rw [lastHintV_eq_none]
        intro x hx hxk
        exact hall x (by simp at hx ⊢; tauto) hxk
      have hf : firstHintV r.level1 rest = none := by
        rw [firstHintV_eq_none]
        intro x hx hxk
        exact hall x (by simp [hx]) hxk
      simp only [fillGo, hl, hf, htail]
      rw [← hna]
    · have hl : lastHintV r.level1 (q ++ [r]) = some r.SectionHint := by
        rw [lastHintV_snoc, if_pos ⟨rfl, hna⟩]
      simp only [fillGo, hl, htail]

theorem fill_idem (s : List DRow) : fillGo [] (fillGo [] s) = fillGo [] s := by
  apply fillGo_fixed
  intro r hr hna x hx hxk
  simp only [List.nil_append] at hr hx
  have hsrc := fillGo_na_sources s [] r hr hna
  exact fillGo_keys_na r.level1 s []
    (fun y hy hyk => hsrc y hy hyk) x hx hxk

/-! ### Helper lemmas: pipeline row tracking -/

theorem mapMO_eq_self {a : Type} (f : a → Option a) :
    ∀ t : List a, (∀ x ∈ t, f x = some x) → mapMO f t = some t := by
  intro t
  induction t with
  | nil => intro _; rfl
  | cons x rest ih =>
    intro h
    unfold mapMO
    rw [h x (by simp), ih (fun y hy => h y (by simp [hy]))]

theorem mapMO_mem {a b : Type} (f : a → Option b) :
    ∀ (t : List a) (u : List b), mapMO f t = some u → ∀ y ∈ u, ∃ x ∈ t, f x = some y := by
  intro t
  induction t with
  | nil =>
    intro u h y hy
    simp [mapMO] at h
    subst h
    simp at hy
  | cons x rest ih =>
    intro u h y hy
    unfold mapMO at h
    cases hf : f x <;> rw [hf] at h
    · simp at h
    · cases hr : mapMO f rest <;> rw [hr] at h
      · simp at h
      · simp only [Option.some.injEq] at h
        subst h
        rcases List.mem_cons.mp hy with rfl | hy
        · exact ⟨x, by simp, hf⟩
        · obtain ⟨z, hz, hfz⟩ := ih _ hr y hy
          exact ⟨z, by simp [hz], hfz⟩

theorem map_eq_self_of {a : Type} (f : a → a) :
    ∀ t : List a, (∀ x ∈ t, f x = x) → t.map f = t := by
  intro t
  induction t with
  | nil => intro _; rfl
  | cons x rest ih =>
    intro h
    simp only [List.map_cons, h x (by simp), ih (fun y hy => h y (by simp [hy]))]

theorem genRow_again (r r1 : DRow) (h : genRow r = some r1) : genRow r1 = some r1 := by
  obtain ⟨v1, v2, v3, v4, v5, v6, v7, v8, l1, l2⟩ := r
  cases v3 <;> simp only [genRow] at h ⊢
  case vstr p =>
    cases ha : parseInt32 (String.mk ((splitOnCharC '.' p.toList).headD [])) <;> rw [ha] at h
    · simp at h
    · cases hb : parseInt32 (String.mk ((splitOnCharC '.' p.toList).getLastD [])) <;>
        rw [hb] at h
      · simp at h
      · simp only [Option.some.injEq] at h
        subst h
        simp only [genRow, ha, hb]
  all_goals simp at h

theorem genRow_fix_congr (r r2 : DRow) (h : genRow r = some r)
    (hP : r2.Position = r.Position) (h1 : r2.level1 = r.level1) (h2 : r2.level2 = r.level2) :
    genRow r2 = some r2 := by
  obtain ⟨v1, v2, v3, v4, v5, v6, v7, v8, l1, l2⟩ := r
  obtain ⟨w1, w2, w3, w4, w5, w6, w7, w8, k1, k2⟩ := r2
  simp only at hP h1 h2
  subst hP h1 h2
  cases w3 <;> simp only [genRow] at h ⊢
  case vstr p =>
    cases ha : parseInt32 (String.mk ((splitOnCharC '.' p.toList).headD [])) <;> rw [ha] at h
    · simp at h
    · cases hb : parseInt32 (String.mk ((splitOnCharC '.' p.toList).getLastD [])) <;>
        rw [hb] at h
      · simp at h
      · simp only [Option.some.injEq] at h
        have e1 : some _ = k1 := congrArg DRow.level1 h
        have e2 : some _ = k2 := congrArg DRow.level2 h
        rw [← e1, ← e2]
  all_goals simp at h

theorem clVal_idem (v : Val) : clVal (clVal v) = clVal v := by
  cases v with
  | vstr s =>
    by_cases h : s = "___ ________ ____________" ∨ s = "________"
    · have h1 : clVal (Val.vstr s) = .na := by
        show (if s = "___ ________ ____________" ∨ s = "________"
              then Val.na else Val.vstr s) = Val.na
        rw [if_pos h]
      rw [h1]
      rfl
    · have h1 : clVal (Val.vstr s) = .vstr s := by
        show (if s = "___ ________ ____________" ∨ s = "________"
              then Val.na else Val.vstr s) = Val.vstr s
        rw [if_neg h]
      rw [h1, h1]
  | na => rfl
  | vnum m e => rfl
  | vint n => rfl

theorem good_hintFix_clVal (v : Val) :
    clVal (hintFix (clVal v)) = hintFix (clVal v) ∧
    hintFix (hintFix (clVal v)) = hintFix (clVal v) := by
  cases v with
  | na => exact ⟨rfl, rfl⟩
  | vnum m e => exact ⟨rfl, rfl⟩
  | vint n => exact ⟨rfl, rfl⟩
  | vstr s =>
    by_cases h1 : s = "___ ________ ____________" ∨ s = "________"
    · have e1 : clVal (Val.vstr s) = .na := by
        show (if s = "___ ________ ____________" ∨ s = "________"
              then Val.na else Val.vstr s) = Val.na
        rw [if_pos h1]
      rw [e1]
      exact ⟨rfl, rfl⟩
    · have e1 : clVal (Val.vstr s) = .vstr s := by
        show (if s = "___ ________ ____________" ∨ s = "________"
              then Val.na else Val.vstr s) = Val.vstr s
        rw [if_neg h1]
      rw [e1]
      by_cases h2 : startsWithChars "Ingenieurbüro Wagner und Koll".toList s.toList = true
      · have e2 : hintFix (Val.vstr s) = .na := by
          show (if startsWithChars "Ingenieurbüro Wagner und Koll".toList s.toList
                then Val.na else Val.vstr s) = Val.na
          rw [if_pos h2]
        rw [e2]
        exact ⟨rfl, rfl⟩
      · have e2 : hintFix (Val.vstr s) = .vstr s := by
          show (if startsWithChars "Ingenieurbüro Wagner und Koll".toList s.toList
                then Val.na else Val.vstr s) = Val.vstr s
          rw [if_neg h2]
        rw [e2, e2]
        exact ⟨e1, rfl⟩

theorem intOfSign_natAbs (b : Bool) (n : Nat) : (intOfSign b n).natAbs = n := by
  cases b <;> simp [intOfSign]

theorem parseDecChars_canon (l : List Char) (m : Int) (e : Nat)
    (h : parseDecChars l = some (m, e)) : e = 0 ∨ m.natAbs % 10 ≠ 0 := by
  unfold parseDecChars at h
  dsimp only at h
  cases hk : parseExpPart ((stripSign (trimL l)).2.span
      (fun c => !(c == 'e' || c == 'E'))).2 <;> rw [hk] at h
  · simp at h
  case some k =>
  dsimp only at h
  split at h
  · split at h
    · simp at h
    · split at h
      · simp at h
      · split at h
        · simp only [Option.some.injEq, Prod.mk.injEq] at h
          obtain ⟨hm, he⟩ := h
          subst he
          subst hm
          refine Or.imp (fun hc => hc) (fun hc => ?_) (scaleDec_canon _ _ _)
          rw [intOfSign_natAbs]
          exact hc
        · simp at h
  · split at h
    · simp only [Option.some.injEq, Prod.mk.injEq] at h
      obtain ⟨hm, he⟩ := h
      subst he
      subst hm
      refine Or.imp (fun hc => hc) (fun hc => ?_) (scaleDec_canon _ _ _)
      rw [intOfSign_natAbs]
      exact hc
    · simp at h

theorem toNumericVal_shape (s : String) :
    toNumericVal s = .na ∨
      ∃ m e, toNumericVal s = .vnum m e ∧ (e = 0 ∨ m.natAbs % 10 ≠ 0) := by
  unfold toNumericVal
  cases hp : parseDecChars s.toList with
  | none => exact Or.inl rfl
  | some pr =>
    exact Or.inr ⟨pr.1, pr.2, rfl, parseDecChars_canon _ _ _ (by rw [hp])⟩

theorem qtyCoerce_shape (v : Val) :
    qtyCoerce v = .na ∨
      ∃ m e, qtyCoerce v = .vnum m e ∧ (e = 0 ∨ m.natAbs % 10 ≠ 0) := by
  cases v with
  | na => exact Or.inl rfl
  | vstr s => exact toNumericVal_shape _
  | vnum m e => exact toNumericVal_shape _
  | vint n => exact toNumericVal_shape _

theorem qtyCoerce_of_output (v : Val) (hok : qtyOkB (qtyCoerce v) = true) :
    qtyCoerce (qtyCoerce v) = qtyCoerce v := by
  rcases qtyCoerce_shape v with hna | ⟨m, e, hv, hcanon⟩
  · rw [hna]
    rfl
  · rw [hv] at hok ⊢
    simp only [qtyOkB, Bool.and_eq_true, decide_eq_true_eq] at hok
    exact qtyCoerce_vnum_roundtrip m e hcanon hok.1 hok.2

theorem clRow_eq_self (r : DRow)
    (h1 : clVal r.Section = r.Section) (h2 : clVal r.SectionHint = r.SectionHint)
    (h3 : clVal r.Position = r.Position) (h4 : clVal r.MainDescription = r.MainDescription)
    (h5 : clVal r.DetailedDescription = r.DetailedDescription)
    (h6 : clVal r.Quantity = r.Quantity) (h7 : clVal r.Unit = r.Unit)
    (h8 : clVal r.Page = r.Page) (h9 : hintFix r.SectionHint = r.SectionHint) :
    clRow r = r := by
  obtain ⟨v1, v2, v3, v4, v5, v6, v7, v8, l1, l2⟩ := r
  simp only at h1 h2 h3 h4 h5 h6 h7 h8 h9
  unfold clRow
  simp only [h1, h2, h3, h4, h5, h6, h7, h8, h9]

theorem pdRow_eq_self (r : DRow) (h : qtyCoerce r.Quantity = r.Quantity) : pdRow r = r := by
  obtain ⟨v1, v2, v3, v4, v5, v6, v7, v8, l1, l2⟩ := r
  simp only at h
  unfold pdRow
  simp only [h]

theorem clVal_position_of_gen (r : DRow) (h : genRow r = some r) :
    clVal r.Position = r.Position := by
  obtain ⟨v1, v2, v3, v4, v5, v6, v7, v8, l1, l2⟩ := r
  cases v3 <;> simp only [genRow] at h
  case vstr p =>
    by_cases hph : p = "___ ________ ____________" ∨ p = "________"
    · exfalso
      rcases hph with rfl | rfl
      · rw [show parseInt32 (String.mk ((splitOnCharC '.'
            "___ ________ ____________".toList).headD [])) = none from by decide] at h
        cases hb : parseInt32 (String.mk ((splitOnCharC '.'
            "___ ________ ____________".toList).getLastD [])) <;> rw [hb] at h <;> simp at h
      · rw [show parseInt32 (String.mk ((splitOnCharC '.'
            "________".toList).headD [])) = none from by decide] at h
        cases hb : parseInt32 (String.mk ((splitOnCharC '.'
            "________".toList).getLastD [])) <;> rw [hb] at h <;> simp at h
    · show (if p = "___ ________ ____________" ∨ p = "________"
            then Val.na else Val.vstr p) = Val.vstr p
      rw [if_neg hph]
  all_goals simp at h

theorem clVal_qtyCoerce (v : Val) : clVal (qtyCoerce v) = qtyCoerce v := by
  rcases qtyCoerce_shape v with hna | ⟨m, e, hv, _⟩
  · rw [hna]
    rfl
  · rw [hv]
    rfl

theorem pipeline_output_mem (t u : List DRow) (hg : generate_position_levels t = some u)
    (r' : DRow) (hr' : r' ∈ fill_hint_columns (parse_datatypes (cleaning_steps u))) :
    ∃ r0, genRow r0 = some r0 ∧
      r' = { pdRow (clRow r0) with SectionHint := r'.SectionHint } := by
  obtain ⟨r2, hr2, he⟩ := fillGo_mem _ [] r' hr'
  unfold parse_datatypes at hr2
  obtain ⟨r3, hr3, rfl⟩ := List.mem_map.mp hr2
  unfold cleaning_steps at hr3
  obtain ⟨r0, hr0, rfl⟩ := List.mem_map.mp hr3
  obtain ⟨rt, _, hgen⟩ := mapMO_mem genRow t u hg r0 hr0
  exact ⟨r0, genRow_again _ _ hgen, he⟩

theorem pipeline_hint_good (u : List DRow) (r' : DRow)
    (hr' : r' ∈ fill_hint_columns (parse_datatypes (cleaning_steps u))) :
    clVal r'.SectionHint = r'.SectionHint ∧ hintFix r'.SectionHint = r'.SectionHint := by
  rcases fillGo_hint_from _ [] r' hr' with hna | ⟨x, hx, hxe⟩
  · rw [hna]
    exact ⟨rfl, rfl⟩
  · simp only [List.nil_append] at hx
    unfold parse_datatypes at hx
    obtain ⟨r3, hr3, rfl⟩ := List.mem_map.mp hx
    unfold cleaning_steps at hr3
    obtain ⟨r0, hr0, rfl⟩ := List.mem_map.mp hr3
    rw [← hxe]
    have hsh : (pdRow (clRow r0)).SectionHint = hintFix (clVal r0.SectionHint) := rfl
    rw [hsh]
    exact good_hintFix_clVal _

/-- C2 counterexample: running the post-processing pipeline a second time on a
table it produced changes a value — in two independent ways.  (1) The raw
quantity `"3,125"` is normalized to `"3.125"` and coerced to the float 3.125;
the second run renders the float back to `"3.125"`, and the number normalizer
now treats the dot as a thousands separator (three trailing digits), yielding
3125.  (2) The raw quantity `"18014398509481984"` (2^54) coerces to a float
whose repr is scientific, `"1.8014398509481984e+16"`; the second run's
normalizer sees a dot followed by more than two characters, strips it as a
thousands separator, and the reparse of `"18014398509481984e+16"` yields
about 1.8e32. -/
theorem C2_counterexample :
    (pipeline [⟨.na, .na, .vstr "3...1", .na, .na, .vstr "3,125", .vstr "m3", .vint 1,
               none, none⟩] =
      some [⟨.na, .na, .vstr "3...1", .na, .na, .vnum 3125 3, .vstr "m3", .vint 1,
             some 3, some 1⟩] ∧
    pipeline [⟨.na, .na, .vstr "3...1", .na, .na, .vnum 3125 3, .vstr "m3", .vint 1,
               some 3, some 1⟩] =
      some [⟨.na, .na, .vstr "3...1", .na, .na, .vnum 3125 0, .vstr "m3", .vint 1,
             some 3, some 1⟩] ∧
    (⟨.na, .na, .vstr "3...1", .na, .na, .vnum 3125 0, .vstr "m3", .vint 1,
      some 3, some 1⟩ : DRow) ≠
      ⟨.na, .na, .vstr "3...1", .na, .na, .vnum 3125 3, .vstr "m3", .vint 1,
       some 3, some 1⟩) ∧
    (pipeline [⟨.na, .na, .vstr "1...2", .na, .na, .vstr "18014398509481984", .vstr "m3",
               .vint 1, none, none⟩] =
      some [⟨.na, .na, .vstr "1...2", .na, .na, .vnum 18014398509481984 0, .vstr "m3",
             .vint 1, some 1, some 2⟩] ∧
    pipeline [⟨.na, .na, .vstr "1...2", .na, .na, .vnum 18014398509481984 0, .vstr "m3",
               .vint 1, some 1, some 2⟩] =
      some [⟨.na, .na, .vstr "1...2", .na, .na,
             .vnum 180143985094819840000000000000000 0, .vstr "m3",
             .vint 1, some 1, some 2⟩]) := by
  refine ⟨⟨by decide, by decide, by decide⟩, by decide, by decide⟩

/-- C2 (amended): re-running the post-processing pipeline on a table it
produced leaves every value unchanged, provided every quantity in that table
is missing, or a decimal with at most two fractional digits and magnitude
below 1e16 — the range in which `str(float)` prints a plain decimal.  (A
quantity with three or more fractional digits, or one at least 1e16 whose
repr is scientific with a dot, is corrupted by the second run, because the
normalizer strips the dot as a thousands separator — see the
counterexample.) -/
theorem C2_pipeline_idempotent (t t1 : List DRow)
    (h : pipeline t = some t1) (hq : ∀ r ∈ t1, qtyOkB r.Quantity = true) :
    pipeline t1 = some t1 := by
  unfold pipeline at h
  cases hg : generate_position_levels t <;> rw [hg] at h
  · simp at h
  case some u =>
  simp only [Option.some.injEq] at h
  subst h
  have step1 : generate_position_levels
      (fill_hint_columns (parse_datatypes (cleaning_steps u))) =
      some (fill_hint_columns (parse_datatypes (cleaning_steps u))) := by
    apply mapMO_eq_self
    intro r' hr'
    obtain ⟨r0, hfix0, he⟩ := pipeline_output_mem t u hg r' hr'
    have hP : r'.Position = clVal r0.Position := congrArg DRow.Position he
    have hL1p := congrArg DRow.level1 he
    have hL2p := congrArg DRow.level2 he
    have hL1 : r'.level1 = r0.level1 := hL1p
    have hL2 : r'.level2 = r0.level2 := hL2p
    exact genRow_fix_congr r0 r' hfix0
      (hP.trans (clVal_position_of_gen r0 hfix0)) hL1 hL2
  have step2 : cleaning_steps (fill_hint_columns (parse_datatypes (cleaning_steps u))) =
      fill_hint_columns (parse_datatypes (cleaning_steps u)) := by
    apply map_eq_self_of
    intro r' hr'
    obtain ⟨r0, hfix0, he⟩ := pipeline_output_mem t u hg r' hr'
    obtain ⟨hg1, hg2⟩ := pipeline_hint_good u r' hr'
    have hS : r'.Section = clVal r0.Section := congrArg DRow.Section he
    have hPo : r'.Position = clVal r0.Position := congrArg DRow.Position he
    have hM : r'.MainDescription = clVal r0.MainDescription :=
      congrArg DRow.MainDescription he
    have hD : r'.DetailedDescription = clVal r0.DetailedDescription :=
      congrArg DRow.DetailedDescription he
    have hQ : r'.Quantity = qtyCoerce (clVal r0.Quantity) := congrArg DRow.Quantity he
    have hU : r'.Unit = clVal r0.Unit := congrArg DRow.Unit he
    have hPg : r'.Page = clVal r0.Page := congrArg DRow.Page he
    refine clRow_eq_self r' ?_ hg1 ?_ ?_ ?_ ?_ ?_ ?_ hg2
    · rw [hS]; exact clVal_idem _
    · rw [hPo]; exact clVal_idem _
    · rw [hM]; exact clVal_idem _
    · rw [hD]; exact clVal_idem _
    · rw [hQ]; exact clVal_qtyCoerce _
    · rw [hU]; exact clVal_idem _
    · rw [hPg]; exact clVal_idem _
  have step3 : parse_datatypes (fill_hint_columns (parse_datatypes (cleaning_steps u))) =
      fill_hint_columns (parse_datatypes (cleaning_steps u)) := by
    apply map_eq_self_of
    intro r' hr'
    obtain ⟨r0, hfix0, he⟩ := pipeline_output_mem t u hg r' hr'
    have hQ : r'.Quantity = qtyCoerce (clVal r0.Quantity) := congrArg DRow.Quantity he
    apply pdRow_eq_self
    rw [hQ]
    apply qtyCoerce_of_output
    rw [← hQ]
    exact hq r' hr'
  have step4 : fill_hint_columns (fill_hint_columns (parse_datatypes (cleaning_steps u))) =
      fill_hint_columns (parse_datatypes (cleaning_steps u)) :=
    fill_idem _
  unfold pipeline
  rw [step1]
  show some (fill_hint_columns (parse_datatypes (cleaning_steps
    (fill_hint_columns (parse_datatypes (cleaning_steps u)))))) =
    some (fill_hint_columns (parse_datatypes (cleaning_steps u)))
  rw [step2, step3, step4]

/-- Witness for C2: a table coming from the raw quantity `"3,50"` (one
fractional digit after coercion) passes through a second pipeline run
unchanged. -/
theorem C2_witness :
    pipeline [⟨.na, .na, .vstr "1...1", .na, .na, .vstr "3,50", .vstr "m3", .vint 1,
               none, none⟩] =
      some [⟨.na, .na, .vstr "1...1", .na, .na, .vnum 35 1, .vstr "m3", .vint 1,
             some 1, some 1⟩] ∧
    (∀ r ∈ [(⟨.na, .na, .vstr "1...1", .na, .na, .vnum 35 1, .vstr "m3", .vint 1,
              some 1, some 1⟩ : DRow)], qtyOkB r.Quantity = true) ∧
    pipeline [⟨.na, .na, .vstr "1...1", .na, .na, .vnum 35 1, .vstr "m3", .vint 1,
               some 1, some 1⟩] =
      some [⟨.na, .na, .vstr "1...1", .na, .na, .vnum 35 1, .vstr "m3", .vint 1,
             some 1, some 1⟩] :=
  ⟨by decide, by decide,
   C2_pipeline_idempotent
     [⟨.na, .na, .vstr "1...1", .na, .na, .vstr "3,50", .vstr "m3", .vint 1, none, none⟩]
     [⟨.na, .na, .vstr "1...1", .na, .na, .vnum 35 1, .vstr "m3", .vint 1, some 1, some 1⟩]
     (by decide) (by decide)⟩
